import Mathlib

/-!
A shallow embedding of jsdev.c (Douglas Crockford's JSDev preprocessor,
2012-01-06) together with a verification of its specification.

Characters are modelled as `Int` values: input bytes are positive, `-1`
plays the role of `EOF` (`fgetc` on an exhausted stream), and `0` marks an
empty one-character pushback slot, exactly like the C global `preview`.
The mutable globals (`preview`, `line_nr`, `cr`, the output stream) become
an explicit state `St` threaded through every scanner.  Loops in the C
source become fuelled recursive functions returning `Except Err St`; the
distinguished error kind `fuelOut` is an artifact of the embedding and is
never produced when enough fuel is supplied.

The state also carries three ghost fields that do not influence control
flow or output: `regexStarts` counts entries into the regexp scanner,
`expanded` records whether the macro expander was ever invoked, and
`tagOverflow` records whether a tag scan ever ran to the `MAX_TAG_LENGTH`
bound instead of stopping at a non-identifier character.
-/

namespace JSDev

/-- Fatal error classification, one constructor per `error(...)` call site
of jsdev.c (plus `fuelOut` for the fuelled embedding). -/
inductive ErrKind where
  | closeInString
  | unterminatedString
  | unterminatedSet
  | closeInRegexp
  | unexpectedComment
  | unterminatedRegexp
  | unterminatedCondition
  | unclosedCondition
  | unbalancedStuff
  | unterminatedStuff
  | unterminatedComment
  | nestedComment
  | fuelOut
  deriving Repr, DecidableEq

/-- A fatal error: its kind and the line number the diagnostic reports
(the value of `line_nr` at the moment `error` is called). -/
structure Err where
  kind : ErrKind
  line : Nat
  deriving Repr, DecidableEq

/-- The scanning state: remaining input, the one-character pushback slot
`preview` (0 = empty, matching the C global), the line counter and CR
flag, the output produced so far, and three ghost observation fields. -/
structure St where
  input : List Int
  preview : Int
  line_nr : Nat
  cr : Bool
  output : List Int
  regexStarts : Nat
  expanded : Bool
  tagOverflow : Bool
  deriving Repr, DecidableEq

/-- The tag registry: pairs of tag name and bound method name, in
declaration order; an empty method list models `methods[i][0] == 0`. -/
abbrev Reg := List (List Int × List Int)

/-- jsdev.c `is_alphanum`: letter, digit, underscore, dollar or period. -/
def is_alphanum (c : Int) : Bool :=
  (97 ≤ c && c ≤ 122) || (48 ≤ c && c ≤ 57) || (65 ≤ c && c ≤ 90) ||
    c == 95 || c == 36 || c == 46

/-- jsdev.c `pre_regexp`: the characters after which a slash starts a
regexp literal: ( , = : [ ! & | ? open-brace close-brace ; -/
def pre_regexp (left : Int) : Bool :=
  left == 40 || left == 44 || left == 61 ||
  left == 58 || left == 91 || left == 33 ||
  left == 38 || left == 124 || left == 63 ||
  left == 123 || left == 125 || left == 59

/-- jsdev.c `emit`: send one character to stdout (only positive ones). -/
def emit (c : Int) (st : St) : St :=
  if 0 < c then { st with output := st.output ++ [c] } else st

/-- jsdev.c `emits`: send a (NUL-free) string to stdout. -/
def emits (s : List Int) (st : St) : St :=
  { st with output := st.output ++ s }

/-- jsdev.c `peek`: fill the pushback slot from the stream if it is empty
and return its content. -/
def peek (st : St) : Int × St :=
  if st.preview ≠ 0 then (st.preview, st)
  else
    match st.input with
    | [] => (-1, { st with preview := -1 })
    | b :: rest => (b, { st with preview := b, input := rest })

/-- The CR/LF line accounting of jsdev.c `get`: a CR counts a line and
sets the CR flag; an LF counts a line only when the CR flag was not just
set; any non-CR character clears the flag. -/
def lineCount (c : Int) (st : St) : St :=
  if c = 13 then { st with cr := true, line_nr := st.line_nr + 1 }
  else if c = 10 ∧ st.cr = false then
    { st with cr := false, line_nr := st.line_nr + 1 }
  else { st with cr := false }

/-- The optional echo of jsdev.c `get`. -/
def emitIf (echo : Bool) (c : Int) (st : St) : St :=
  if echo then { st with output := st.output ++ [c] } else st

/-- jsdev.c `get`: consume the next character (pushback slot first), do
the CR/LF line accounting, optionally echo. Non-positive reads become
`EOF` (-1) before any accounting. -/
def get (echo : Bool) (st : St) : Int × St :=
  match (if st.preview ≠ 0 then (st.preview, { st with preview := 0 })
    else
      match st.input with
      | [] => (-1, st)
      | b :: rest => (b, { st with input := rest })) with
  | (c, st1) =>
    if c ≤ 0 then (-1, st1)
    else (c, emitIf echo c (lineCount c st1))

/-- jsdev.c `unget`: store one character in the pushback slot. -/
def unget (c : Int) (st : St) : St :=
  { st with preview := c }

/-- Loop body of jsdev.c `string`: scan an (escaped) string literal up to
the closing quote, echoing everything; `was` is the line the literal
began on, reported by the unterminated-string diagnostic. -/
def stringLoop : Nat → Int → Bool → Nat → St → Except Err St
  | 0, _, _, _, _ => .error ⟨.fuelOut, 0⟩
  | n + 1, quote, in_comment, was, st0 =>
    let g := get true st0
    if g.1 = quote then .ok g.2
    else
      let g2 := if g.1 = 92 then get true g.2 else g
      if in_comment ∧ g2.1 = 42 then
        let p := peek g2.2
        if p.1 = 47 then .error ⟨.closeInString, p.2.line_nr⟩
        else stringLoop n quote in_comment was p.2
      else if g2.1 = -1 then .error ⟨.unterminatedString, was⟩
      else stringLoop n quote in_comment was g2.2

/-- jsdev.c `string`. -/
def string (fuel : Nat) (quote : Int) (in_comment : Bool) (st : St) :
    Except Err St :=
  stringLoop fuel quote in_comment st.line_nr st

/-- Inner character-class loop of jsdev.c `regexp` (between [ and ]). -/
def regexpClass : Nat → Bool → St → Except Err St
  | 0, _, _ => .error ⟨.fuelOut, 0⟩
  | n + 1, in_comment, st0 =>
    let g := get true st0
    if g.1 = 93 then .ok g.2
    else
      let g2 := if g.1 = 92 then get true g.2 else g
      if in_comment ∧ g2.1 = 42 then
        let p := peek g2.2
        if p.1 = 47 then .error ⟨.closeInRegexp, p.2.line_nr⟩
        else regexpClass n in_comment p.2
      else if g2.1 = -1 then .error ⟨.unterminatedSet, g2.2.line_nr⟩
      else regexpClass n in_comment g2.2

/-- Outer loop of jsdev.c `regexp`: scan a regexp literal up to the
unescaped closing slash, echoing everything. -/
def regexpLoop : Nat → Bool → Nat → St → Except Err St
  | 0, _, _, _ => .error ⟨.fuelOut, 0⟩
  | n + 1, in_comment, was, st0 =>
    let g := get true st0
    if g.1 = 91 then
      match regexpClass n in_comment g.2 with
      | .error e => .error e
      | .ok st2 => regexpLoop n in_comment was st2
    else if g.1 = 47 then
      if in_comment then
        let p := peek g.2
        if p.1 = 47 ∨ p.1 = 42 then .error ⟨.unexpectedComment, p.2.line_nr⟩
        else .ok p.2
      else .ok g.2
    else
      let g2 := if g.1 = 92 then get true g.2 else g
      if in_comment ∧ g2.1 = 42 then
        let p := peek g2.2
        if p.1 = 47 then .error ⟨.unexpectedComment, p.2.line_nr⟩
        else regexpLoop n in_comment was p.2
      else if g2.1 = -1 then .error ⟨.unterminatedRegexp, was⟩
      else regexpLoop n in_comment was g2.2

/-- jsdev.c `regexp` (the ghost counter `regexStarts` is bumped here). -/
def regexp (fuel : Nat) (in_comment : Bool) (st : St) : Except Err St :=
  regexpLoop fuel in_comment st.line_nr
    { st with regexStarts := st.regexStarts + 1 }

/-- Loop of jsdev.c `condition`: balanced-bracket region with nested
string and regexp literals; `left` starts as an open brace. -/
def conditionLoop : Nat → Int → Int → St → Except Err St
  | 0, _, _, _ => .error ⟨.fuelOut, 0⟩
  | n + 1, left, paren, st0 =>
    let g := get true st0
    let c := g.1
    let st1 := g.2
    let left' := if 32 < c then c else left
    if c = 40 ∨ c = 123 ∨ c = 91 then
      conditionLoop n left' (paren + 1) st1
    else if c = 41 ∨ c = 125 ∨ c = 93 then
      if paren - 1 = 0 then .ok st1
      else conditionLoop n left' (paren - 1) st1
    else if c = -1 then .error ⟨.unterminatedCondition, st1.line_nr⟩
    else if c = 39 ∨ c = 34 ∨ c = 96 then
      match string n c true st1 with
      | .error e => .error e
      | .ok st2 => conditionLoop n left' paren st2
    else if c = 47 then
      let p := peek st1
      if p.1 = 47 ∨ p.1 = 42 then .error ⟨.unexpectedComment, p.2.line_nr⟩
      else if pre_regexp left then
        match regexp n true p.2 with
        | .error e => .error e
        | .ok st3 => conditionLoop n left' paren st3
      else conditionLoop n left' paren p.2
    else if c = 42 then
      let p := peek st1
      if p.1 = 47 then .error ⟨.unclosedCondition, p.2.line_nr⟩
      else conditionLoop n left' paren p.2
    else conditionLoop n left' paren st1

/-- jsdev.c `condition`. -/
def condition (fuel : Nat) (st : St) : Except Err St :=
  conditionLoop fuel 123 0 st

/-- Leading-space skip at the top of jsdev.c `stuff`. -/
def spacesLoop : Nat → St → Except Err St
  | 0, _ => .error ⟨.fuelOut, 0⟩
  | n + 1, st =>
    let p := peek st
    if p.1 = 32 then spacesLoop n (get false p.2).2
    else .ok p.2

/-- Result of the star-run loop inside jsdev.c `stuff`: either the
comment terminator was consumed, or scanning continues. -/
inductive StarRes where
  | term (st : St)
  | cont (st : St)
  deriving Repr

/-- The `while (peek() == '*')` loop of jsdev.c `stuff`: consume star
runs, detect the comment terminator, check the bracket depth there. -/
def starLoop : Nat → Int → St → Except Err StarRes
  | 0, _, _ => .error ⟨.fuelOut, 0⟩
  | n + 1, paren, st =>
    let p := peek st
    if p.1 = 42 then
      let st2 := (get false p.2).2
      let p2 := peek st2
      if p2.1 = 47 then
        let st4 := (get false p2.2).2
        if 0 < paren then .error ⟨.unbalancedStuff, st4.line_nr⟩
        else .ok (.term st4)
      else starLoop n paren (emit 42 p2.2)
    else .ok (.cont p.2)

/-- Main loop of jsdev.c `stuff`: scan the comment body up to the
terminator, tracking bracket depth, skipping strings and regexps. -/
def stuffLoop : Nat → Int → Int → St → Except Err St
  | 0, _, _, _ => .error ⟨.fuelOut, 0⟩
  | n + 1, left, paren, st0 =>
    match starLoop n paren st0 with
    | .error e => .error e
    | .ok (.term st1) => .ok st1
    | .ok (.cont st1) =>
      let g := get true st1
      let c := g.1
      let st2 := g.2
      let left' := if 32 < c then c else left
      if c = -1 then .error ⟨.unterminatedStuff, st2.line_nr⟩
      else if c = 39 ∨ c = 34 ∨ c = 96 then
        match string n c true st2 with
        | .error e => .error e
        | .ok st3 => stuffLoop n left' paren st3
      else if c = 40 ∨ c = 123 ∨ c = 91 then
        stuffLoop n left' (paren + 1) st2
      else if c = 41 ∨ c = 125 ∨ c = 93 then
        if paren - 1 < 0 then .error ⟨.unbalancedStuff, st2.line_nr⟩
        else stuffLoop n left' (paren - 1) st2
      else if c = 47 then
        let p := peek st2
        if p.1 = 47 ∨ p.1 = 42 then .error ⟨.unexpectedComment, p.2.line_nr⟩
        else if pre_regexp left then
          match regexp n true p.2 with
          | .error e => .error e
          | .ok st4 => stuffLoop n left' paren st4
        else stuffLoop n left' paren p.2
      else stuffLoop n left' paren st2

/-- jsdev.c `stuff`. -/
def stuff (fuel : Nat) (st : St) : Except Err St :=
  match spacesLoop fuel st with
  | .error e => .error e
  | .ok st1 => stuffLoop fuel 123 0 st1

/-- The tag-name reading loop of jsdev.c `process` (lines 449-455): read
up to `MAX_TAG_LENGTH` identifier characters.  Returns the candidate,
the last value of `c`, whether the loop ran to the length bound, and the
state. -/
def tagLoop : Nat → Int → List Int → St → List Int × Int × Bool × St
  | 0, c0, acc, st => (acc.reverse, c0, true, st)
  | n + 1, _, acc, st =>
    let g := get false st
    if is_alphanum g.1 then tagLoop n g.1 (g.1 :: acc) g.2
    else (acc.reverse, g.1, false, g.2)

/-- Tag scan plus the `unget(c)` that follows it in jsdev.c `process`
(the ghost `tagOverflow` records a run to the length bound).  -/
def tagScan (st : St) : List Int × Int × St :=
  let t := tagLoop 80 0 [] st
  (t.1, t.2.1,
    unget t.2.1 { t.2.2.2 with tagOverflow := t.2.2.2.tagOverflow || t.2.2.1 })

/-- jsdev.c `match`: first registry entry with the given tag name. -/
def matchTag (regs : Reg) (t : List Int) : Option (List Int) :=
  match regs with
  | [] => none
  | (nm, m) :: rest => if nm = t then some m else matchTag rest t

/-- jsdev.c `expand`: the macro expander (ghost `expanded` set here).
Emits one of the four shapes: optional if-header from a parenthesized
condition, then a brace block, optionally wrapping a bound call. -/
def expand (fuel : Nat) (method : List Int) (st : St) : Except Err St :=
  let stg := { st with expanded := true }
  let p := peek stg
  let head : Except Err St :=
    if p.1 = 40 then
      match condition fuel (emits [105, 102, 32] p.2) with
      | .error e => .error e
      | .ok st1 => .ok (emit 32 st1)
    else .ok p.2
  match head with
  | .error e => .error e
  | .ok st1 =>
    let st2 := emit 123 st1
    if method ≠ [] then
      match stuff fuel (emit 40 (emits method st2)) with
      | .error e => .error e
      | .ok st3 => .ok (emits [41, 59, 125] st3)
    else
      match stuff fuel st2 with
      | .error e => .error e
      | .ok st3 => .ok (emit 125 st3)

/-- The slash-slash branch of jsdev.c `process`: echo to end of line. -/
def lineCommentLoop : Nat → St → Except Err St
  | 0, _ => .error ⟨.fuelOut, 0⟩
  | n + 1, st =>
    let g := get true st
    if g.1 = 10 ∨ g.1 = 13 ∨ g.1 = -1 then .ok g.2
    else lineCommentLoop n g.2

/-- The unmatched-comment echo loop of jsdev.c `process` (lines 471-488):
`c` is the character most recently placed in the loop variable. -/
def rawCommentLoop : Nat → Int → St → Except Err St
  | 0, _, _ => .error ⟨.fuelOut, 0⟩
  | n + 1, c, st =>
    if c = -1 then .error ⟨.unterminatedComment, st.line_nr⟩
    else if c = 47 then
      let g := get true st
      if g.1 = 42 ∨ g.1 = 47 then .error ⟨.nestedComment, g.2.line_nr⟩
      else rawCommentLoop n g.1 g.2
    else if c = 42 then
      let g := get true st
      if g.1 = 47 then .ok g.2
      else rawCommentLoop n g.1 g.2
    else
      let g := get true st
      rawCommentLoop n g.1 g.2

/-- Result of one iteration of the main loop of jsdev.c `process`:
either end of input was reached, or the loop continues with a new
current character and left-significant character. -/
inductive StepRes where
  | done (st : St)
  | next (c : Int) (left : Int) (st : St)
  deriving Repr

/-- One iteration of the main loop of jsdev.c `process` (lines 418-519),
with current character `c` and left-significant character `left`. -/
def processStep (fuel : Nat) (regs : Reg) (c left : Int) (st : St) :
    Except Err StepRes :=
  if c = -1 then .ok (.done st)
  else if c = 39 ∨ c = 34 ∨ c = 96 then
    match string fuel c false (emit c st) with
    | .error e => .error e
    | .ok st1 => .ok (.next 0 left st1)
  else if c = 47 then
    let p := peek st
    if p.1 = 47 then
      match lineCommentLoop fuel (emit 47 p.2) with
      | .error e => .error e
      | .ok st2 =>
        let g := get false st2
        .ok (.next g.1 left g.2)
    else
      let p2 := peek p.2
      if p2.1 = 42 then
        let st3 := (get false p2.2).2
        let ts := tagScan st3
        match (if ts.1 = [] then none else matchTag regs ts.1) with
        | some m =>
          match expand fuel m ts.2.2 with
          | .error e => .error e
          | .ok st5 =>
            let g := get false st5
            .ok (.next g.1 left g.2)
        | none =>
          match rawCommentLoop fuel ts.2.1 (emits ts.1 (emits [47, 42] ts.2.2)) with
          | .error e => .error e
          | .ok st5 =>
            let g := get false st5
            .ok (.next g.1 left g.2)
      else
        let st3 := emit 47 p2.2
        if pre_regexp left then
          match regexp fuel false st3 with
          | .error e => .error e
          | .ok st4 =>
            let g := get false st4
            .ok (.next g.1 47 g.2)
        else
          let g := get false st3
          .ok (.next g.1 47 g.2)
  else
    let st1 := emit c st
    let left1 := if 32 < c then c else left
    let g := get false st1
    .ok (.next g.1 left1 g.2)

/-- The main loop of jsdev.c `process`, iterating `processStep`. -/
def processLoop : Nat → Reg → Int → Int → St → Except Err St
  | 0, _, _, _, _ => .error ⟨.fuelOut, 0⟩
  | n + 1, regs, c, left, st =>
    match processStep n regs c left st with
    | .error e => .error e
    | .ok (.done st1) => .ok st1
    | .ok (.next c1 l1 st1) => processLoop n regs c1 l1 st1

/-- The initial state over a given input stream. -/
def mkSt (input : List Int) : St :=
  ⟨input, 0, 0, false, [], 0, false, false⟩

/-- jsdev.c `process`: set `line_nr` to 1, prime the loop with the first
character and a zero left-significant character. -/
def process (fuel : Nat) (regs : Reg) (input : List Int) : Except Err St :=
  let g := get false { mkSt input with line_nr := 1 }
  processLoop fuel regs g.1 0 g.2

/-- Run the whole preprocessor with ample fuel, returning the final
state. -/
def jsdevSt (regs : Reg) (input : List Int) : Except Err St :=
  process (2 * input.length + 16) regs input

/-- Run the whole preprocessor with ample fuel, returning the output. -/
def jsdev (regs : Reg) (input : List Int) : Except Err (List Int) :=
  match jsdevSt regs input with
  | .error e => .error e
  | .ok st => .ok st.output

/-- Indexing into a NUL-terminated command-line token (argv string):
positions past the end read as NUL. -/
def tokGet (tok : List Int) (j : Nat) : Int :=
  tok.getD j 0

/-- The identifier-copying loop of jsdev.c `main` (used both for the tag
name and for the method name): read up to `MAX_TAG_LENGTH` identifier
characters starting at index `j`.  Returns the characters read, the
index after them, and the last value of `c`. -/
def cfgLoop (tok : List Int) : Nat → Nat → Int → List Int →
    List Int × Nat × Int
  | 0, j, c0, acc => (acc.reverse, j, c0)
  | n + 1, j, _, acc =>
    let c := tokGet tok j
    if is_alphanum c then cfgLoop tok n (j + 1) c (c :: acc)
    else (acc.reverse, j, c)

/-- The per-token configuration parsing of jsdev.c `main` (lines
539-567): a tag name optionally followed by a colon and method name.
`Except Unit` models the bad-method-line fatal error. -/
def parseToken (tok : List Int) : Except Unit (List Int × List Int) :=
  let r := cfgLoop tok 80 0 0 []
  if r.1 = [] then .error ()
  else if r.2.2 = 0 then .ok (r.1, [])
  else if r.2.2 = 58 then
    let r2 := cfgLoop tok 80 (r.2.1 + 1) 0 []
    if r2.1 = [] ∨ r2.2.2 ≠ 0 then .error ()
    else .ok (r.1, r2.1)
  else .error ()

/-- A harness that exercises the cursor alone: read characters without
echo until end of stream, as the line counter ticks. -/
def drainLines : Nat → St → St
  | 0, st => st
  | n + 1, st =>
    let g := get false st
    if g.1 = -1 then g.2 else drainLines n g.2

/-- Rewrite a LF-terminated text as the equivalent CRLF-terminated one. -/
def toCRLF : List Int → List Int
  | [] => []
  | b :: rest => if b = 10 then 13 :: 10 :: toCRLF rest else b :: toCRLF rest

/-! ## Verification infrastructure

`stream st` is the sequence of characters still to be consumed (the
content of the pushback slot, when positive, followed by the remaining
input).  `wf st` are the state invariants an actual run maintains: the
pushback slot holds `-1` only at end of stream, and all input bytes are
positive (the C program treats non-positive bytes as end of stream, so a
text stream consists of positive bytes). -/

/-- Characters yet to be consumed: pushback slot first. -/
def stream (st : St) : List Int :=
  (if 0 < st.preview then [st.preview] else []) ++ st.input

/-- The one-character buffer the main loop of `process` holds in its
variable `c`: a positive character is pending, `0` and `-1` are not. -/
def heldList (c : Int) : List Int :=
  if 0 < c then [c] else []

/-- State invariants of a run over a positive-byte stream. -/
def wf (st : St) : Prop :=
  -1 ≤ st.preview ∧ (st.preview = -1 → st.input = []) ∧
    ∀ b ∈ st.input, 0 < b

theorem wf_preview_cases (st : St) (h : wf st) :
    st.preview = 0 ∨ st.preview = -1 ∨ 0 < st.preview := by
  rcases h with ⟨h1, -, -⟩
  rcases lt_trichotomy st.preview 0 with hlt | heq | hgt
  · exact Or.inr (Or.inl (le_antisymm (by omega) h1))
  · exact Or.inl heq
  · exact Or.inr (Or.inr hgt)

theorem stream_pos (st : St) (h : wf st) : ∀ b ∈ stream st, 0 < b := by
  rcases h with ⟨-, -, h3⟩
  intro b hb
  unfold stream at hb
  rcases List.mem_append.1 hb with hb | hb
  · split at hb
    · rcases List.mem_singleton.1 hb with rfl; assumption
    · exact absurd hb (List.not_mem_nil b)
  · exact h3 b hb

theorem wf_of_preview_zero (st : St) (h0 : st.preview = 0)
    (hpos : ∀ b ∈ st.input, 0 < b) : wf st := by
  refine ⟨by omega, by omega, hpos⟩

/-- `peek` on an exhausted stream. -/
theorem peek_nil (st : St) (hwf : wf st) (h : stream st = []) :
    peek st = (-1, { st with preview := -1, input := [] }) := by
  rcases wf_preview_cases st hwf with h0 | h0 | h0
  · have hin : st.input = [] := by
      unfold stream at h; simpa [h0] using h
    simp [peek, h0, hin]
  · have hin : st.input = [] := hwf.2.1 h0
    cases st
    simp_all [peek]
  · exfalso
    unfold stream at h
    simp [h0] at h

/-- `peek` with at least one character pending. -/
theorem peek_cons (st : St) (hwf : wf st) (b : Int) (rest : List Int)
    (h : stream st = b :: rest) :
    peek st = (b, { st with preview := b, input := rest }) := by
  rcases wf_preview_cases st hwf with h0 | h0 | h0
  · have hin : st.input = b :: rest := by
      unfold stream at h; simpa [h0] using h
    simp [peek, h0, hin]
  · have hin : st.input = [] := hwf.2.1 h0
    exfalso; unfold stream at h; simp [h0, hin] at h
  · have hb : st.preview = b ∧ st.input = rest := by
      unfold stream at h
      rw [if_pos h0] at h
      exact ⟨by simpa using congrArg (·.headI) h, by simpa using congrArg List.tail h⟩
    rcases hb with ⟨hb1, hb2⟩
    have hne : st.preview ≠ 0 := by omega
    cases st
    simp_all [peek]

/-- `get` on an exhausted stream. -/
theorem get_nil (e : Bool) (st : St) (hwf : wf st) (h : stream st = []) :
    get e st = (-1, { st with preview := 0, input := [] }) := by
  rcases wf_preview_cases st hwf with h0 | h0 | h0
  · have hin : st.input = [] := by
      unfold stream at h; simpa [h0] using h
    simp only [get, h0]
    norm_num
    cases st; simp_all
  · have hin : st.input = [] := hwf.2.1 h0
    have hne : st.preview ≠ 0 := by omega
    simp only [get, if_pos hne, h0]
    norm_num
    cases st; simp_all
  · exfalso; unfold stream at h; simp [h0] at h

@[simp] theorem lineCount_input (c : Int) (st : St) :
    (lineCount c st).input = st.input := by
  unfold lineCount; split_ifs <;> rfl

@[simp] theorem lineCount_preview (c : Int) (st : St) :
    (lineCount c st).preview = st.preview := by
  unfold lineCount; split_ifs <;> rfl

@[simp] theorem lineCount_output (c : Int) (st : St) :
    (lineCount c st).output = st.output := by
  unfold lineCount; split_ifs <;> rfl

@[simp] theorem lineCount_regexStarts (c : Int) (st : St) :
    (lineCount c st).regexStarts = st.regexStarts := by
  unfold lineCount; split_ifs <;> rfl

@[simp] theorem lineCount_expanded (c : Int) (st : St) :
    (lineCount c st).expanded = st.expanded := by
  unfold lineCount; split_ifs <;> rfl

@[simp] theorem lineCount_tagOverflow (c : Int) (st : St) :
    (lineCount c st).tagOverflow = st.tagOverflow := by
  unfold lineCount; split_ifs <;> rfl

theorem lineCount_line_nr (c : Int) (st : St) :
    (lineCount c st).line_nr = st.line_nr +
      (if c = 13 ∨ (c = 10 ∧ st.cr = false) then 1 else 0) := by
  unfold lineCount
  split_ifs with h1 h2 h3 h3 <;> simp_all

theorem lineCount_cr (c : Int) (st : St) :
    (lineCount c st).cr = decide (c = 13) := by
  unfold lineCount
  split_ifs with h1 h2 <;> simp_all

@[simp] theorem emitIf_input (e : Bool) (c : Int) (st : St) :
    (emitIf e c st).input = st.input := by
  unfold emitIf; split_ifs <;> rfl

@[simp] theorem emitIf_preview (e : Bool) (c : Int) (st : St) :
    (emitIf e c st).preview = st.preview := by
  unfold emitIf; split_ifs <;> rfl

@[simp] theorem emitIf_line_nr (e : Bool) (c : Int) (st : St) :
    (emitIf e c st).line_nr = st.line_nr := by
  unfold emitIf; split_ifs <;> rfl

@[simp] theorem emitIf_cr (e : Bool) (c : Int) (st : St) :
    (emitIf e c st).cr = st.cr := by
  unfold emitIf; split_ifs <;> rfl

@[simp] theorem emitIf_regexStarts (e : Bool) (c : Int) (st : St) :
    (emitIf e c st).regexStarts = st.regexStarts := by
  unfold emitIf; split_ifs <;> rfl

@[simp] theorem emitIf_expanded (e : Bool) (c : Int) (st : St) :
    (emitIf e c st).expanded = st.expanded := by
  unfold emitIf; split_ifs <;> rfl

@[simp] theorem emitIf_tagOverflow (e : Bool) (c : Int) (st : St) :
    (emitIf e c st).tagOverflow = st.tagOverflow := by
  unfold emitIf; split_ifs <;> rfl

theorem emitIf_output (e : Bool) (c : Int) (st : St) :
    (emitIf e c st).output = st.output ++ (if e then [c] else []) := by
  unfold emitIf; cases e <;> simp

@[simp] theorem stream_emitIf (e : Bool) (c : Int) (st : St) :
    stream (emitIf e c st) = stream st := by
  simp [stream]

@[simp] theorem stream_lineCount (c : Int) (st : St) :
    stream (lineCount c st) = stream st := by
  simp [stream]

theorem stream_zero_preview (st : St) (rest : List Int) :
    stream { st with preview := 0, input := rest } = rest := by
  simp [stream]

/-- `get` with at least one character pending: the consumed character is
the head of the stream; line accounting and optional echo follow. -/
theorem get_cons (e : Bool) (st : St) (hwf : wf st) (b : Int)
    (rest : List Int) (h : stream st = b :: rest) :
    get e st =
      (b, emitIf e b (lineCount b { st with preview := 0, input := rest })) := by
  have hbpos : 0 < b := stream_pos st hwf b (h ▸ List.mem_cons_self b rest)
  have hble : ¬ b ≤ 0 := by omega
  rcases wf_preview_cases st hwf with h0 | h0 | h0
  · have hin : st.input = b :: rest := by
      unfold stream at h; simpa [h0] using h
    simp only [get, h0, hin]
    norm_num [hble]
  · have hin : st.input = [] := hwf.2.1 h0
    exfalso; unfold stream at h; simp [h0, hin] at h
  · have hb : st.preview = b ∧ st.input = rest := by
      unfold stream at h
      rw [if_pos h0] at h
      exact ⟨by simpa using congrArg (·.headI) h, by simpa using congrArg List.tail h⟩
    rcases hb with ⟨hb1, hb2⟩
    have hne : st.preview ≠ 0 := by omega
    simp only [get]
    rw [if_pos hne]
    simp only [hb1, hb2]
    norm_num [hble]

/-- The tail state of a `get` from a well-formed state is well-formed. -/
theorem wf_afterGet (e : Bool) (b : Int) (rest : List Int) (st : St)
    (hwf : wf st) (h : stream st = b :: rest) :
    wf (emitIf e b (lineCount b { st with preview := 0, input := rest })) := by
  refine ⟨by simp, by simp, ?_⟩
  intro x hx
  simp only [emitIf_input, lineCount_input] at hx
  exact stream_pos st hwf x (h ▸ List.mem_cons_of_mem b hx)

/-- The state after a `peek` from a well-formed state is well-formed. -/
theorem wf_peek_nil (st : St) :
    wf { st with preview := -1, input := ([] : List Int) } := by
  exact ⟨by simp, fun _ => rfl, by simp⟩

theorem wf_peek_cons (st : St) (hwf : wf st) (b : Int) (rest : List Int)
    (h : stream st = b :: rest) :
    wf { st with preview := b, input := rest } := by
  have hb : 0 < b := stream_pos st hwf b (h ▸ List.mem_cons_self b rest)
  refine ⟨by simp; omega, by simp; omega, ?_⟩
  intro x hx
  exact stream_pos st hwf x (h ▸ List.mem_cons_of_mem b hx)

theorem stream_peek_cons (st : St) (b : Int) (rest : List Int) :
    stream { st with preview := b, input := rest } = b :: rest ∨
      ¬ 0 < b := by
  by_cases hb : 0 < b
  · exact Or.inl (by simp [stream, hb])
  · exact Or.inr hb

/-! ### Projection lemmas for `get` and `peek` that need no invariants -/

@[simp] theorem peek_output (st : St) : (peek st).2.output = st.output := by
  unfold peek
  by_cases hp : st.preview ≠ 0 <;> cases hin : st.input <;> simp [hp, hin]

@[simp] theorem peek_regexStarts (st : St) :
    (peek st).2.regexStarts = st.regexStarts := by
  unfold peek
  by_cases hp : st.preview ≠ 0 <;> cases hin : st.input <;> simp [hp, hin]

@[simp] theorem peek_expanded (st : St) :
    (peek st).2.expanded = st.expanded := by
  unfold peek
  by_cases hp : st.preview ≠ 0 <;> cases hin : st.input <;> simp [hp, hin]

@[simp] theorem peek_tagOverflow (st : St) :
    (peek st).2.tagOverflow = st.tagOverflow := by
  unfold peek
  by_cases hp : st.preview ≠ 0 <;> cases hin : st.input <;> simp [hp, hin]

@[simp] theorem peek_line_nr (st : St) :
    (peek st).2.line_nr = st.line_nr := by
  unfold peek
  by_cases hp : st.preview ≠ 0 <;> cases hin : st.input <;> simp [hp, hin]

@[simp] theorem get_regexStarts (e : Bool) (st : St) :
    (get e st).2.regexStarts = st.regexStarts := by
  unfold get
  by_cases hp : st.preview ≠ 0 <;> cases hin : st.input <;>
    simp [hp, hin] <;> split_ifs <;> simp

@[simp] theorem get_expanded (e : Bool) (st : St) :
    (get e st).2.expanded = st.expanded := by
  unfold get
  by_cases hp : st.preview ≠ 0 <;> cases hin : st.input <;>
    simp [hp, hin] <;> split_ifs <;> simp

@[simp] theorem get_tagOverflow (e : Bool) (st : St) :
    (get e st).2.tagOverflow = st.tagOverflow := by
  unfold get
  by_cases hp : st.preview ≠ 0 <;> cases hin : st.input <;>
    simp [hp, hin] <;> split_ifs <;> simp

theorem get_output_mono (e : Bool) (st : St) :
    ∃ d, (get e st).2.output = st.output ++ d := by
  refine ⟨(if e = true ∧ 0 < (get e st).1 then [(get e st).1] else []), ?_⟩
  unfold get
  by_cases hp : st.preview ≠ 0 <;> cases hin : st.input <;>
    simp [hp, hin] <;> split_ifs <;>
    simp_all [emitIf_output]

/-! ### The echo relation and ghost-field preservation -/

/-- `st'` extends the output of `st` by exactly the characters consumed
from its stream. -/
def Echoes (st st' : St) : Prop :=
  ∃ d, stream st = d ++ stream st' ∧ st'.output = st.output ++ d

/-- The two ghost flags are unchanged. -/
def Flags (st st' : St) : Prop :=
  st'.expanded = st.expanded ∧ st'.tagOverflow = st.tagOverflow

/-- All three ghost fields are unchanged. -/
def Ghost (st st' : St) : Prop :=
  Flags st st' ∧ st'.regexStarts = st.regexStarts

theorem echoes_refl (st : St) : Echoes st st :=
  ⟨[], rfl, by simp⟩

theorem echoes_trans {a b c : St} (h1 : Echoes a b) (h2 : Echoes b c) :
    Echoes a c := by
  obtain ⟨d1, hs1, ho1⟩ := h1
  obtain ⟨d2, hs2, ho2⟩ := h2
  exact ⟨d1 ++ d2, by rw [hs1, hs2, List.append_assoc],
    by rw [ho2, ho1, List.append_assoc]⟩

theorem flags_refl (st : St) : Flags st st := ⟨rfl, rfl⟩

theorem flags_trans {a b c : St} (h1 : Flags a b) (h2 : Flags b c) :
    Flags a c :=
  ⟨h2.1.trans h1.1, h2.2.trans h1.2⟩

theorem ghost_refl (st : St) : Ghost st st := ⟨flags_refl st, rfl⟩

theorem ghost_trans {a b c : St} (h1 : Ghost a b) (h2 : Ghost b c) :
    Ghost a c :=
  ⟨flags_trans h1.1 h2.1, h2.2.trans h1.2⟩

theorem ghost_flags {a b : St} (h : Ghost a b) : Flags a b := h.1

/-! ### Bundled facts about the states returned by `get` and `peek` -/

/-- The state `get` returns alongside a consumed character. -/
def afterGetSt (e : Bool) (b : Int) (rest : List Int) (st : St) : St :=
  emitIf e b (lineCount b { st with preview := 0, input := rest })

theorem get_consA (e : Bool) (st : St) (hwf : wf st) (b : Int)
    (rest : List Int) (h : stream st = b :: rest) :
    get e st = (b, afterGetSt e b rest st) :=
  get_cons e st hwf b rest h

@[simp] theorem afterGetSt_stream (e : Bool) (b : Int) (rest : List Int)
    (st : St) : stream (afterGetSt e b rest st) = rest := by
  simp [afterGetSt, stream]

@[simp] theorem afterGetSt_input (e : Bool) (b : Int) (rest : List Int)
    (st : St) : (afterGetSt e b rest st).input = rest := by
  simp [afterGetSt]

@[simp] theorem afterGetSt_preview (e : Bool) (b : Int) (rest : List Int)
    (st : St) : (afterGetSt e b rest st).preview = 0 := by
  simp [afterGetSt]

@[simp] theorem afterGetSt_output (e : Bool) (b : Int) (rest : List Int)
    (st : St) :
    (afterGetSt e b rest st).output = st.output ++ (if e then [b] else []) := by
  simp [afterGetSt, emitIf_output]

@[simp] theorem afterGetSt_regexStarts (e : Bool) (b : Int) (rest : List Int)
    (st : St) : (afterGetSt e b rest st).regexStarts = st.regexStarts := by
  simp [afterGetSt]

@[simp] theorem afterGetSt_expanded (e : Bool) (b : Int) (rest : List Int)
    (st : St) : (afterGetSt e b rest st).expanded = st.expanded := by
  simp [afterGetSt]

@[simp] theorem afterGetSt_tagOverflow (e : Bool) (b : Int) (rest : List Int)
    (st : St) : (afterGetSt e b rest st).tagOverflow = st.tagOverflow := by
  simp [afterGetSt]

theorem afterGetSt_line_nr (e : Bool) (b : Int) (rest : List Int) (st : St) :
    (afterGetSt e b rest st).line_nr = st.line_nr +
      (if b = 13 ∨ (b = 10 ∧ st.cr = false) then 1 else 0) := by
  simp [afterGetSt, lineCount_line_nr]

theorem afterGetSt_cr (e : Bool) (b : Int) (rest : List Int) (st : St) :
    (afterGetSt e b rest st).cr = decide (b = 13) := by
  simp [afterGetSt, lineCount_cr]

theorem wf_afterGetSt (e : Bool) (b : Int) (rest : List Int) (st : St)
    (hwf : wf st) (h : stream st = b :: rest) :
    wf (afterGetSt e b rest st) :=
  wf_afterGet e b rest st hwf h

theorem ghost_afterGetSt (e : Bool) (b : Int) (rest : List Int) (st : St) :
    Ghost st (afterGetSt e b rest st) := by
  exact ⟨⟨by simp, by simp⟩, by simp⟩

theorem echoes_afterGetSt (b : Int) (rest : List Int) (st : St)
    (h : stream st = b :: rest) :
    Echoes st (afterGetSt true b rest st) :=
  ⟨[b], by simp [h], by simp⟩

theorem stream_preview_pos (st : St) (b : Int) (hb : 0 < b)
    (rest : List Int) :
    stream { st with preview := b, input := rest } = b :: rest := by
  simp [stream, hb]

theorem stream_preview_neg (st : St) :
    stream { st with preview := -1, input := ([] : List Int) } = [] := by
  simp [stream]

theorem ghost_set_preview (st : St) (p : Int) (l : List Int) :
    Ghost st { st with preview := p, input := l } :=
  ⟨⟨rfl, rfl⟩, rfl⟩

theorem echoes_peek_nil (st : St) (h : stream st = []) :
    Echoes st { st with preview := -1, input := ([] : List Int) } :=
  ⟨[], by rw [h]; simp [stream], by simp⟩

theorem echoes_peek_cons (st : St) (b : Int) (hb : 0 < b) (rest : List Int)
    (h : stream st = b :: rest) :
    Echoes st { st with preview := b, input := rest } :=
  ⟨[], by rw [h]; simp [stream, hb], by simp⟩

/-! ### The string scanner echoes exactly what it consumes -/

theorem stringLoop_echo (n : Nat) :
    ∀ (q : Int) (ic : Bool) (was : Nat) (st st' : St),
    stringLoop n q ic was st = .ok st' → wf st →
    wf st' ∧ Echoes st st' ∧ Ghost st st' := by
  induction n with
  | zero =>
    intro q ic was st st' h _
    simp [stringLoop] at h
  | succ n ih =>
    intro q ic was st st' h hwf
    simp only [stringLoop] at h
    rcases hs : stream st with _ | ⟨b, rest⟩
    · rw [get_nil true st hwf hs] at h
      simp only at h
      by_cases hq : (-1 : Int) = q
      · rw [if_pos hq] at h
        simp only [Except.ok.injEq] at h
        subst h
        refine ⟨⟨by simp, by simp, by simp⟩, ⟨[], by rw [hs]; simp [stream], by simp⟩,
          ⟨⟨by simp, by simp⟩, by simp⟩⟩
      · rw [if_neg hq] at h
        simp at h
    · have hb : 0 < b := stream_pos st hwf b (hs ▸ List.mem_cons_self b rest)
      rw [get_consA true st hwf b rest hs] at h
      simp only at h
      have hwfA := wf_afterGetSt true b rest st hwf hs
      have hsA : stream (afterGetSt true b rest st) = rest := by simp
      by_cases hq : b = q
      · rw [if_pos hq] at h
        simp only [Except.ok.injEq] at h
        subst h
        exact ⟨hwfA, echoes_afterGetSt b rest st hs, ghost_afterGetSt true b rest st⟩
      · rw [if_neg hq] at h
        by_cases hesc : b = 92
        · rw [if_pos hesc] at h
          rcases hs2 : stream (afterGetSt true b rest st) with _ | ⟨b2, rest2⟩
          · rw [get_nil true _ hwfA hs2] at h
            simp at h
          · have hb2 : 0 < b2 :=
              stream_pos _ hwfA b2 (hs2 ▸ List.mem_cons_self b2 rest2)
            rw [get_consA true _ hwfA b2 rest2 hs2] at h
            simp only at h
            have hwfB := wf_afterGetSt true b2 rest2 _ hwfA hs2
            by_cases hic : ic = true ∧ b2 = 42
            · rw [if_pos hic] at h
              rcases hs3 : stream (afterGetSt true b2 rest2 (afterGetSt true b rest st)) with _ | ⟨p, r2⟩
              · rw [peek_nil _ hwfB hs3] at h
                simp only at h
                rw [if_neg (by norm_num)] at h
                obtain ⟨hwf', he', hg'⟩ := ih q ic was _ st' h (wf_peek_nil _)
                refine ⟨hwf', ?_, ?_⟩
                · exact echoes_trans (echoes_afterGetSt b rest st hs)
                    (echoes_trans (echoes_afterGetSt b2 rest2 _ hs2)
                      (echoes_trans (echoes_peek_nil _ hs3) he'))
                · exact ghost_trans (ghost_afterGetSt true b rest st)
                    (ghost_trans (ghost_afterGetSt true b2 rest2 _)
                      (ghost_trans (ghost_set_preview _ _ _) hg'))
              · have hp : 0 < p := stream_pos _ hwfB p (hs3 ▸ List.mem_cons_self p r2)
                rw [peek_cons _ hwfB p r2 hs3] at h
                simp only at h
                by_cases hp47 : p = 47
                · rw [if_pos hp47] at h
                  simp at h
                · rw [if_neg hp47] at h
                  obtain ⟨hwf', he', hg'⟩ := ih q ic was _ st' h
                    (wf_peek_cons _ hwfB p r2 hs3)
                  refine ⟨hwf', ?_, ?_⟩
                  · exact echoes_trans (echoes_afterGetSt b rest st hs)
                      (echoes_trans (echoes_afterGetSt b2 rest2 _ hs2)
                        (echoes_trans (echoes_peek_cons _ p hp r2 hs3) he'))
                  · exact ghost_trans (ghost_afterGetSt true b rest st)
                      (ghost_trans (ghost_afterGetSt true b2 rest2 _)
                        (ghost_trans (ghost_set_preview _ _ _) hg'))
            · rw [if_neg hic] at h
              rw [if_neg (by omega : ¬ b2 = -1)] at h
              obtain ⟨hwf', he', hg'⟩ := ih q ic was _ st' h hwfB
              refine ⟨hwf', ?_, ?_⟩
              · exact echoes_trans (echoes_afterGetSt b rest st hs)
                  (echoes_trans (echoes_afterGetSt b2 rest2 _ hs2) he')
              · exact ghost_trans (ghost_afterGetSt true b rest st)
                  (ghost_trans (ghost_afterGetSt true b2 rest2 _) hg')
        · rw [if_neg hesc] at h
          simp only at h
          by_cases hic : ic = true ∧ b = 42
          · rw [if_pos hic] at h
            rcases hs3 : stream (afterGetSt true b rest st) with _ | ⟨p, r2⟩
            · rw [peek_nil _ hwfA hs3] at h
              simp only at h
              rw [if_neg (by norm_num)] at h
              obtain ⟨hwf', he', hg'⟩ := ih q ic was _ st' h (wf_peek_nil _)
              refine ⟨hwf', ?_, ?_⟩
              · exact echoes_trans (echoes_afterGetSt b rest st hs)
                  (echoes_trans (echoes_peek_nil _ hs3) he')
              · exact ghost_trans (ghost_afterGetSt true b rest st)
                  (ghost_trans (ghost_set_preview _ _ _) hg')
            · have hp : 0 < p := stream_pos _ hwfA p (hs3 ▸ List.mem_cons_self p r2)
              rw [peek_cons _ hwfA p r2 hs3] at h
              simp only at h
              by_cases hp47 : p = 47
              · rw [if_pos hp47] at h
                simp at h
              · rw [if_neg hp47] at h
                obtain ⟨hwf', he', hg'⟩ := ih q ic was _ st' h
                  (wf_peek_cons _ hwfA p r2 hs3)
                refine ⟨hwf', ?_, ?_⟩
                · exact echoes_trans (echoes_afterGetSt b rest st hs)
                    (echoes_trans (echoes_peek_cons _ p hp r2 hs3) he')
                · exact ghost_trans (ghost_afterGetSt true b rest st)
                    (ghost_trans (ghost_set_preview _ _ _) hg')
          · rw [if_neg hic] at h
            rw [if_neg (by omega : ¬ b = -1)] at h
            obtain ⟨hwf', he', hg'⟩ := ih q ic was _ st' h hwfA
            exact ⟨hwf', echoes_trans (echoes_afterGetSt b rest st hs) he',
              ghost_trans (ghost_afterGetSt true b rest st) hg'⟩

/-! ### The regexp scanner echoes exactly what it consumes -/

theorem regexpClass_echo (n : Nat) :
    ∀ (ic : Bool) (st st' : St),
    regexpClass n ic st = .ok st' → wf st →
    wf st' ∧ Echoes st st' ∧ Ghost st st' := by
  induction n with
  | zero =>
    intro ic st st' h _
    simp [regexpClass] at h
  | succ n ih =>
    intro ic st st' h hwf
    simp only [regexpClass] at h
    rcases hs : stream st with _ | ⟨b, rest⟩
    · rw [get_nil true st hwf hs] at h
      simp at h
    · have hb : 0 < b := stream_pos st hwf b (hs ▸ List.mem_cons_self b rest)
      rw [get_consA true st hwf b rest hs] at h
      simp only at h
      have hwfA := wf_afterGetSt true b rest st hwf hs
      by_cases hq : b = 93
      · rw [if_pos hq] at h
        simp only [Except.ok.injEq] at h
        subst h
        exact ⟨hwfA, echoes_afterGetSt b rest st hs, ghost_afterGetSt true b rest st⟩
      · rw [if_neg hq] at h
        by_cases hesc : b = 92
        · rw [if_pos hesc] at h
          rcases hs2 : stream (afterGetSt true b rest st) with _ | ⟨b2, rest2⟩
          · rw [get_nil true _ hwfA hs2] at h
            simp at h
          · have hb2 : 0 < b2 :=
              stream_pos _ hwfA b2 (hs2 ▸ List.mem_cons_self b2 rest2)
            rw [get_consA true _ hwfA b2 rest2 hs2] at h
            simp only at h
            have hwfB := wf_afterGetSt true b2 rest2 _ hwfA hs2
            by_cases hic : ic = true ∧ b2 = 42
            · rw [if_pos hic] at h
              rcases hs3 : stream (afterGetSt true b2 rest2 (afterGetSt true b rest st)) with _ | ⟨p, r2⟩
              · rw [peek_nil _ hwfB hs3] at h
                simp only at h
                rw [if_neg (by norm_num)] at h
                obtain ⟨hwf', he', hg'⟩ := ih ic _ st' h (wf_peek_nil _)
                refine ⟨hwf', ?_, ?_⟩
                · exact echoes_trans (echoes_afterGetSt b rest st hs)
                    (echoes_trans (echoes_afterGetSt b2 rest2 _ hs2)
                      (echoes_trans (echoes_peek_nil _ hs3) he'))
                · exact ghost_trans (ghost_afterGetSt true b rest st)
                    (ghost_trans (ghost_afterGetSt true b2 rest2 _)
                      (ghost_trans (ghost_set_preview _ _ _) hg'))
              · have hp : 0 < p := stream_pos _ hwfB p (hs3 ▸ List.mem_cons_self p r2)
                rw [peek_cons _ hwfB p r2 hs3] at h
                simp only at h
                by_cases hp47 : p = 47
                · rw [if_pos hp47] at h
                  simp at h
                · rw [if_neg hp47] at h
                  obtain ⟨hwf', he', hg'⟩ := ih ic _ st' h
                    (wf_peek_cons _ hwfB p r2 hs3)
                  refine ⟨hwf', ?_, ?_⟩
                  · exact echoes_trans (echoes_afterGetSt b rest st hs)
                      (echoes_trans (echoes_afterGetSt b2 rest2 _ hs2)
                        (echoes_trans (echoes_peek_cons _ p hp r2 hs3) he'))
                  · exact ghost_trans (ghost_afterGetSt true b rest st)
                      (ghost_trans (ghost_afterGetSt true b2 rest2 _)
                        (ghost_trans (ghost_set_preview _ _ _) hg'))
            · rw [if_neg hic] at h
              rw [if_neg (by omega : ¬ b2 = -1)] at h
              obtain ⟨hwf', he', hg'⟩ := ih ic _ st' h hwfB
              refine ⟨hwf', ?_, ?_⟩
              · exact echoes_trans (echoes_afterGetSt b rest st hs)
                  (echoes_trans (echoes_afterGetSt b2 rest2 _ hs2) he')
              · exact ghost_trans (ghost_afterGetSt true b rest st)
                  (ghost_trans (ghost_afterGetSt true b2 rest2 _) hg')
        · rw [if_neg hesc] at h
          simp only at h
          by_cases hic : ic = true ∧ b = 42
          · rw [if_pos hic] at h
            rcases hs3 : stream (afterGetSt true b rest st) with _ | ⟨p, r2⟩
            · rw [peek_nil _ hwfA hs3] at h
              simp only at h
              rw [if_neg (by norm_num)] at h
              obtain ⟨hwf', he', hg'⟩ := ih ic _ st' h (wf_peek_nil _)
              refine ⟨hwf', ?_, ?_⟩
              · exact echoes_trans (echoes_afterGetSt b rest st hs)
                  (echoes_trans (echoes_peek_nil _ hs3) he')
              · exact ghost_trans (ghost_afterGetSt true b rest st)
                  (ghost_trans (ghost_set_preview _ _ _) hg')
            · have hp : 0 < p := stream_pos _ hwfA p (hs3 ▸ List.mem_cons_self p r2)
              rw [peek_cons _ hwfA p r2 hs3] at h
              simp only at h
              by_cases hp47 : p = 47
              · rw [if_pos hp47] at h
                simp at h
              · rw [if_neg hp47] at h
                obtain ⟨hwf', he', hg'⟩ := ih ic _ st' h
                  (wf_peek_cons _ hwfA p r2 hs3)
                refine ⟨hwf', ?_, ?_⟩
                · exact echoes_trans (echoes_afterGetSt b rest st hs)
                    (echoes_trans (echoes_peek_cons _ p hp r2 hs3) he')
                · exact ghost_trans (ghost_afterGetSt true b rest st)
                    (ghost_trans (ghost_set_preview _ _ _) hg')
          · rw [if_neg hic] at h
            rw [if_neg (by omega : ¬ b = -1)] at h
            obtain ⟨hwf', he', hg'⟩ := ih ic _ st' h hwfA
            exact ⟨hwf', echoes_trans (echoes_afterGetSt b rest st hs) he',
              ghost_trans (ghost_afterGetSt true b rest st) hg'⟩

theorem regexpLoop_echo (n : Nat) :
    ∀ (ic : Bool) (was : Nat) (st st' : St),
    regexpLoop n ic was st = .ok st' → wf st →
    wf st' ∧ Echoes st st' ∧ Ghost st st' := by
  induction n with
  | zero =>
    intro ic was st st' h _
    simp [regexpLoop] at h
  | succ n ih =>
    intro ic was st st' h hwf
    simp only [regexpLoop] at h
    rcases hs : stream st with _ | ⟨b, rest⟩
    · rw [get_nil true st hwf hs] at h
      simp at h
    · have hb : 0 < b := stream_pos st hwf b (hs ▸ List.mem_cons_self b rest)
      rw [get_consA true st hwf b rest hs] at h
      simp only at h
      have hwfA := wf_afterGetSt true b rest st hwf hs
      by_cases hq : b = 91
      · rw [if_pos hq] at h
        rcases hcls : regexpClass n ic (afterGetSt true b rest st) with e | st2
        · rw [hcls] at h
          simp at h
        · rw [hcls] at h
          obtain ⟨hwf2, he2, hg2⟩ := regexpClass_echo n ic _ st2 hcls hwfA
          obtain ⟨hwf', he', hg'⟩ := ih ic was st2 st' h hwf2
          refine ⟨hwf', ?_, ?_⟩
          · exact echoes_trans (echoes_afterGetSt b rest st hs)
              (echoes_trans he2 he')
          · exact ghost_trans (ghost_afterGetSt true b rest st)
              (ghost_trans hg2 hg')
      · rw [if_neg hq] at h
        by_cases hsl : b = 47
        · rw [if_pos hsl] at h
          cases hic : ic with
          | false =>
            rw [hic] at h
            simp only [Bool.false_eq_true, if_false] at h
            simp only [Except.ok.injEq] at h
            subst h
            exact ⟨hwfA, echoes_afterGetSt b rest st hs,
              ghost_afterGetSt true b rest st⟩
          | true =>
            rw [hic] at h
            simp only [if_true] at h
            rcases hs3 : stream (afterGetSt true b rest st) with _ | ⟨p, r2⟩
            · rw [peek_nil _ hwfA hs3] at h
              simp only at h
              rw [if_neg (by norm_num)] at h
              simp only [Except.ok.injEq] at h
              subst h
              refine ⟨wf_peek_nil _, ?_, ?_⟩
              · exact echoes_trans (echoes_afterGetSt b rest st hs)
                  (echoes_peek_nil _ hs3)
              · exact ghost_trans (ghost_afterGetSt true b rest st)
                  (ghost_set_preview _ _ _)
            · have hp : 0 < p := stream_pos _ hwfA p (hs3 ▸ List.mem_cons_self p r2)
              rw [peek_cons _ hwfA p r2 hs3] at h
              simp only at h
              by_cases hp47 : p = 47 ∨ p = 42
              · rw [if_pos hp47] at h
                simp at h
              · rw [if_neg hp47] at h
                simp only [Except.ok.injEq] at h
                subst h
                refine ⟨wf_peek_cons _ hwfA p r2 hs3, ?_, ?_⟩
                · exact echoes_trans (echoes_afterGetSt b rest st hs)
                    (echoes_peek_cons _ p hp r2 hs3)
                · exact ghost_trans (ghost_afterGetSt true b rest st)
                    (ghost_set_preview _ _ _)
        · rw [if_neg hsl] at h
          by_cases hesc : b = 92
          · rw [if_pos hesc] at h
            rcases hs2 : stream (afterGetSt true b rest st) with _ | ⟨b2, rest2⟩
            · rw [get_nil true _ hwfA hs2] at h
              simp at h
            · have hb2 : 0 < b2 :=
                stream_pos _ hwfA b2 (hs2 ▸ List.mem_cons_self b2 rest2)
              rw [get_consA true _ hwfA b2 rest2 hs2] at h
              simp only at h
              have hwfB := wf_afterGetSt true b2 rest2 _ hwfA hs2
              by_cases hic : ic = true ∧ b2 = 42
              · rw [if_pos hic] at h
                rcases hs3 : stream (afterGetSt true b2 rest2 (afterGetSt true b rest st)) with _ | ⟨p, r2⟩
                · rw [peek_nil _ hwfB hs3] at h
                  simp only at h
                  rw [if_neg (by norm_num)] at h
                  obtain ⟨hwf', he', hg'⟩ := ih ic was _ st' h (wf_peek_nil _)
                  refine ⟨hwf', ?_, ?_⟩
                  · exact echoes_trans (echoes_afterGetSt b rest st hs)
                      (echoes_trans (echoes_afterGetSt b2 rest2 _ hs2)
                        (echoes_trans (echoes_peek_nil _ hs3) he'))
                  · exact ghost_trans (ghost_afterGetSt true b rest st)
                      (ghost_trans (ghost_afterGetSt true b2 rest2 _)
                        (ghost_trans (ghost_set_preview _ _ _) hg'))
                · have hp : 0 < p := stream_pos _ hwfB p (hs3 ▸ List.mem_cons_self p r2)
                  rw [peek_cons _ hwfB p r2 hs3] at h
                  simp only at h
                  by_cases hp47 : p = 47
                  · rw [if_pos hp47] at h
                    simp at h
                  · rw [if_neg hp47] at h
                    obtain ⟨hwf', he', hg'⟩ := ih ic was _ st' h
                      (wf_peek_cons _ hwfB p r2 hs3)
                    refine ⟨hwf', ?_, ?_⟩
                    · exact echoes_trans (echoes_afterGetSt b rest st hs)
                        (echoes_trans (echoes_afterGetSt b2 rest2 _ hs2)
                          (echoes_trans (echoes_peek_cons _ p hp r2 hs3) he'))
                    · exact ghost_trans (ghost_afterGetSt true b rest st)
                        (ghost_trans (ghost_afterGetSt true b2 rest2 _)
                          (ghost_trans (ghost_set_preview _ _ _) hg'))
              · rw [if_neg hic] at h
                rw [if_neg (by omega : ¬ b2 = -1)] at h
                obtain ⟨hwf', he', hg'⟩ := ih ic was _ st' h hwfB
                refine ⟨hwf', ?_, ?_⟩
                · exact echoes_trans (echoes_afterGetSt b rest st hs)
                    (echoes_trans (echoes_afterGetSt b2 rest2 _ hs2) he')
                · exact ghost_trans (ghost_afterGetSt true b rest st)
                    (ghost_trans (ghost_afterGetSt true b2 rest2 _) hg')
          · rw [if_neg hesc] at h
            simp only at h
            by_cases hic : ic = true ∧ b = 42
            · rw [if_pos hic] at h
              rcases hs3 : stream (afterGetSt true b rest st) with _ | ⟨p, r2⟩
              · rw [peek_nil _ hwfA hs3] at h
                simp only at h
                rw [if_neg (by norm_num)] at h
                obtain ⟨hwf', he', hg'⟩ := ih ic was _ st' h (wf_peek_nil _)
                refine ⟨hwf', ?_, ?_⟩
                · exact echoes_trans (echoes_afterGetSt b rest st hs)
                    (echoes_trans (echoes_peek_nil _ hs3) he')
                · exact ghost_trans (ghost_afterGetSt true b rest st)
                    (ghost_trans (ghost_set_preview _ _ _) hg')
              · have hp : 0 < p := stream_pos _ hwfA p (hs3 ▸ List.mem_cons_self p r2)
                rw [peek_cons _ hwfA p r2 hs3] at h
                simp only at h
                by_cases hp47 : p = 47
                · rw [if_pos hp47] at h
                  simp at h
                · rw [if_neg hp47] at h
                  obtain ⟨hwf', he', hg'⟩ := ih ic was _ st' h
                    (wf_peek_cons _ hwfA p r2 hs3)
                  refine ⟨hwf', ?_, ?_⟩
                  · exact echoes_trans (echoes_afterGetSt b rest st hs)
                      (echoes_trans (echoes_peek_cons _ p hp r2 hs3) he')
                  · exact ghost_trans (ghost_afterGetSt true b rest st)
                      (ghost_trans (ghost_set_preview _ _ _) hg')
            · rw [if_neg hic] at h
              rw [if_neg (by omega : ¬ b = -1)] at h
              obtain ⟨hwf', he', hg'⟩ := ih ic was _ st' h hwfA
              exact ⟨hwf', echoes_trans (echoes_afterGetSt b rest st hs) he',
                ghost_trans (ghost_afterGetSt true b rest st) hg'⟩

/-- `regexp` itself: echoes exactly, preserves the two flags, and bumps
the ghost regexp counter by exactly one. -/
theorem regexp_echo (n : Nat) (ic : Bool) (st st' : St)
    (h : regexp n ic st = .ok st') (hwf : wf st) :
    wf st' ∧ Echoes st st' ∧ Flags st st' ∧
      st'.regexStarts = st.regexStarts + 1 := by
  unfold regexp at h
  have hwfg : wf { st with regexStarts := st.regexStarts + 1 } := by
    obtain ⟨h1, h2, h3⟩ := hwf
    exact ⟨h1, h2, h3⟩
  obtain ⟨hwf', he', hg'⟩ := regexpLoop_echo n ic st.line_nr _ st' h hwfg
  refine ⟨hwf', ?_, ?_, ?_⟩
  · obtain ⟨d, hd1, hd2⟩ := he'
    exact ⟨d, by simpa [stream] using hd1, by simpa using hd2⟩
  · exact ⟨hg'.1.1.trans rfl, hg'.1.2.trans rfl⟩
  · exact hg'.2.trans rfl

/-! ### The line-comment and raw-comment loops echo exactly -/

theorem lineCommentLoop_echo (n : Nat) :
    ∀ (st st' : St),
    lineCommentLoop n st = .ok st' → wf st →
    wf st' ∧ Echoes st st' ∧ Ghost st st' := by
  induction n with
  | zero =>
    intro st st' h _
    simp [lineCommentLoop] at h
  | succ n ih =>
    intro st st' h hwf
    simp only [lineCommentLoop] at h
    rcases hs : stream st with _ | ⟨b, rest⟩
    · rw [get_nil true st hwf hs] at h
      simp only at h
      rw [if_pos (by norm_num)] at h
      simp only [Except.ok.injEq] at h
      subst h
      refine ⟨⟨by simp, by simp, by simp⟩, ⟨[], by rw [hs]; simp [stream], by simp⟩,
        ⟨⟨by simp, by simp⟩, by simp⟩⟩
    · have hb : 0 < b := stream_pos st hwf b (hs ▸ List.mem_cons_self b rest)
      rw [get_consA true st hwf b rest hs] at h
      simp only at h
      have hwfA := wf_afterGetSt true b rest st hwf hs
      by_cases hq : b = 10 ∨ b = 13 ∨ b = -1
      · rw [if_pos hq] at h
        simp only [Except.ok.injEq] at h
        subst h
        exact ⟨hwfA, echoes_afterGetSt b rest st hs, ghost_afterGetSt true b rest st⟩
      · rw [if_neg hq] at h
        obtain ⟨hwf', he', hg'⟩ := ih _ st' h hwfA
        exact ⟨hwf', echoes_trans (echoes_afterGetSt b rest st hs) he',
          ghost_trans (ghost_afterGetSt true b rest st) hg'⟩

theorem rawCommentLoop_echo (n : Nat) :
    ∀ (c : Int) (st st' : St),
    rawCommentLoop n c st = .ok st' → wf st →
    wf st' ∧ Echoes st st' ∧ Ghost st st' := by
  induction n with
  | zero =>
    intro c st st' h _
    simp [rawCommentLoop] at h
  | succ n ih =>
    intro c st st' h hwf
    simp only [rawCommentLoop] at h
    by_cases hc1 : c = -1
    · rw [if_pos hc1] at h
      simp at h
    · rw [if_neg hc1] at h
      by_cases hc2 : c = 47
      · rw [if_pos hc2] at h
        rcases hs : stream st with _ | ⟨b, rest⟩
        · rw [get_nil true st hwf hs] at h
          simp only at h
          rw [if_neg (by norm_num)] at h
          obtain ⟨hwf', he', hg'⟩ := ih _ _ st' h ⟨by simp, by simp, by simp⟩
          refine ⟨hwf', ?_, ?_⟩
          · exact echoes_trans ⟨[], by rw [hs]; simp [stream], by simp⟩ he'
          · exact ghost_trans ⟨⟨by simp, by simp⟩, by simp⟩ hg'
        · have hb : 0 < b := stream_pos st hwf b (hs ▸ List.mem_cons_self b rest)
          rw [get_consA true st hwf b rest hs] at h
          simp only at h
          have hwfA := wf_afterGetSt true b rest st hwf hs
          by_cases hq : b = 42 ∨ b = 47
          · rw [if_pos hq] at h
            simp at h
          · rw [if_neg hq] at h
            obtain ⟨hwf', he', hg'⟩ := ih _ _ st' h hwfA
            exact ⟨hwf', echoes_trans (echoes_afterGetSt b rest st hs) he',
              ghost_trans (ghost_afterGetSt true b rest st) hg'⟩
      · rw [if_neg hc2] at h
        by_cases hc3 : c = 42
        · rw [if_pos hc3] at h
          rcases hs : stream st with _ | ⟨b, rest⟩
          · rw [get_nil true st hwf hs] at h
            simp only at h
            rw [if_neg (by norm_num)] at h
            obtain ⟨hwf', he', hg'⟩ := ih _ _ st' h ⟨by simp, by simp, by simp⟩
            refine ⟨hwf', ?_, ?_⟩
            · exact echoes_trans ⟨[], by rw [hs]; simp [stream], by simp⟩ he'
            · exact ghost_trans ⟨⟨by simp, by simp⟩, by simp⟩ hg'
          · have hb : 0 < b := stream_pos st hwf b (hs ▸ List.mem_cons_self b rest)
            rw [get_consA true st hwf b rest hs] at h
            simp only at h
            have hwfA := wf_afterGetSt true b rest st hwf hs
            by_cases hq : b = 47
            · rw [if_pos hq] at h
              simp only [Except.ok.injEq] at h
              subst h
              exact ⟨hwfA, echoes_afterGetSt b rest st hs,
                ghost_afterGetSt true b rest st⟩
            · rw [if_neg hq] at h
              obtain ⟨hwf', he', hg'⟩ := ih _ _ st' h hwfA
              exact ⟨hwf', echoes_trans (echoes_afterGetSt b rest st hs) he',
                ghost_trans (ghost_afterGetSt true b rest st) hg'⟩
        · rw [if_neg hc3] at h
          rcases hs : stream st with _ | ⟨b, rest⟩
          · rw [get_nil true st hwf hs] at h
            simp only at h
            obtain ⟨hwf', he', hg'⟩ := ih _ _ st' h ⟨by simp, by simp, by simp⟩
            refine ⟨hwf', ?_, ?_⟩
            · exact echoes_trans ⟨[], by rw [hs]; simp [stream], by simp⟩ he'
            · exact ghost_trans ⟨⟨by simp, by simp⟩, by simp⟩ hg'
          · have hb : 0 < b := stream_pos st hwf b (hs ▸ List.mem_cons_self b rest)
            rw [get_consA true st hwf b rest hs] at h
            simp only at h
            have hwfA := wf_afterGetSt true b rest st hwf hs
            obtain ⟨hwf', he', hg'⟩ := ih _ _ st' h hwfA
            exact ⟨hwf', echoes_trans (echoes_afterGetSt b rest st hs) he',
              ghost_trans (ghost_afterGetSt true b rest st) hg'⟩

/-! ### The tag-name scan -/

/-- The value jsdev.c `get` reports at the head of a byte list: the head,
or `EOF` when the list is exhausted. -/
def endChar : List Int → Int
  | [] => -1
  | b :: _ => b

/-- `tagLoop` when the identifier run is shorter than the loop bound: the
candidate is exactly the run, the loop variable holds the first
non-identifier character (or `EOF`), which has been consumed. -/
theorem tagLoop_break (n : Nat) :
    ∀ (acc : List Int) (c0 : Int) (st : St), wf st →
    ((stream st).takeWhile is_alphanum).length < n →
    ∃ st1, tagLoop n c0 acc st =
      (acc.reverse ++ (stream st).takeWhile is_alphanum,
       endChar ((stream st).dropWhile is_alphanum), false, st1) ∧
      st1.preview = 0 ∧
      st1.input = ((stream st).dropWhile is_alphanum).tail ∧
      st1.output = st.output ∧ Ghost st st1 := by
  induction n with
  | zero =>
    intro acc c0 st _ hlen
    omega
  | succ n ih =>
    intro acc c0 st hwf hlen
    simp only [tagLoop]
    rcases hs : stream st with _ | ⟨b, rest⟩
    · rw [get_nil false st hwf hs]
      simp only
      rw [if_neg (by decide)]
      exact ⟨{ st with preview := 0, input := [] },
        by simp [endChar], by simp, by simp, by simp,
        ⟨⟨by simp, by simp⟩, by simp⟩⟩
    · rw [get_consA false st hwf b rest hs]
      simp only
      by_cases hal : is_alphanum b = true
      · rw [if_pos hal]
        have hwfA := wf_afterGetSt false b rest st hwf hs
        have hsA : stream (afterGetSt false b rest st) = rest := by simp
        have hlen2 : ((stream (afterGetSt false b rest st)).takeWhile
            is_alphanum).length < n := by
          rw [hsA]
          rw [hs] at hlen
          simp only [List.takeWhile_cons, hal, if_true, List.length_cons] at hlen
          omega
        obtain ⟨st1, heq, hp, hi, ho, hg⟩ := ih (b :: acc) b _ hwfA hlen2
        refine ⟨st1, ?_, hp, ?_, ?_,
          ghost_trans (ghost_afterGetSt false b rest st) hg⟩
        · rw [heq, hsA]
          simp [List.takeWhile_cons, List.dropWhile_cons, hal]
        · rw [hi, hsA]
          simp [List.dropWhile_cons, hal]
        · rw [ho]; simp
      · rw [if_neg hal]
        refine ⟨afterGetSt false b rest st, ?_, by simp, ?_, by simp,
          ghost_afterGetSt false b rest st⟩
        · simp [List.takeWhile_cons, List.dropWhile_cons, hal, endChar]
        · simp [List.dropWhile_cons, hal]

/-- `tagLoop` when the identifier run reaches the loop bound: the
candidate is the first `n` characters, and the loop variable holds the
last of them (already stored in the candidate). -/
theorem tagLoop_count (n : Nat) :
    ∀ (acc : List Int) (c0 : Int) (st : St), wf st →
    n ≤ ((stream st).takeWhile is_alphanum).length →
    ∃ st1, tagLoop n c0 acc st =
      (acc.reverse ++ (stream st).take n,
       (if n = 0 then c0 else (stream st).getD (n - 1) 0), true, st1) ∧
      stream st1 = (stream st).drop n ∧
      (0 < n → st1.preview = 0 ∧ st1.input = (stream st).drop n) ∧
      (n = 0 → st1 = st) ∧
      st1.output = st.output ∧ Ghost st st1 := by
  induction n with
  | zero =>
    intro acc c0 st _ _
    exact ⟨st, by simp [tagLoop], by simp,
      fun hcon => absurd hcon (by omega), fun _ => rfl, rfl, ghost_refl st⟩
  | succ n ih =>
    intro acc c0 st hwf hlen
    have hne : (stream st).takeWhile is_alphanum ≠ [] := by
      intro hcon
      rw [hcon] at hlen
      simp at hlen
    rcases hs : stream st with _ | ⟨b, rest⟩
    · rw [hs] at hne; simp at hne
    · have hal : is_alphanum b = true := by
        by_contra hcon
        rw [hs] at hne
        simp [List.takeWhile_cons, hcon] at hne
      simp only [tagLoop]
      rw [get_consA false st hwf b rest hs]
      simp only
      rw [if_pos hal]
      have hwfA := wf_afterGetSt false b rest st hwf hs
      have hsA : stream (afterGetSt false b rest st) = rest := by simp
      have hlen2 : n ≤ ((stream (afterGetSt false b rest st)).takeWhile
          is_alphanum).length := by
        rw [hsA]
        rw [hs] at hlen
        simp only [List.takeWhile_cons, hal, if_true, List.length_cons] at hlen
        omega
      obtain ⟨st1, heq, hstr, hpos, hzero, ho, hg⟩ := ih (b :: acc) b _ hwfA hlen2
      refine ⟨st1, ?_, ?_, ?_, fun hcon => absurd hcon (by omega), ?_, ?_⟩
      · rw [heq, hsA]
        rcases n with _ | m
        · simp
        · rw [if_neg (by omega), if_neg (by omega)]
          simp
      · rw [hstr, hsA]
        simp
      · intro _
        rcases Nat.eq_zero_or_pos n with hn | hn
        · have hst1 := hzero hn
          subst hst1
          subst hn
          exact ⟨by simp, by simp⟩
        · obtain ⟨hp1, hp2⟩ := hpos hn
          refine ⟨hp1, ?_⟩
          rw [hp2, hsA]
          simp
      · rw [ho]; simp
      · exact ghost_trans (ghost_afterGetSt false b rest st) hg

theorem stream_unget_pos (c : Int) (R : St) (hc : 0 < c) :
    stream (unget c R) = c :: R.input := by
  simp [stream, unget, hc]

theorem wf_unget_pos (c : Int) (R : St) (hc : 0 < c)
    (hpos : ∀ b ∈ R.input, 0 < b) : wf (unget c R) := by
  refine ⟨?_, ?_, ?_⟩
  · show -1 ≤ c
    omega
  · intro hcon
    exfalso
    have hce : c = -1 := hcon
    omega
  · intro b hb
    exact hpos b hb

/-- `tagScan` (tag read plus `unget`) when the identifier run is
shorter than `MAX_TAG_LENGTH`: the candidate is the run, the character
pushed back is the loop terminator (not part of the candidate), and the
stream resumes exactly at that terminator — nothing is scanned twice or
dropped. -/
theorem tagScan_break (st : St) (hwf : wf st)
    (hlen : ((stream st).takeWhile is_alphanum).length < 80) :
    (tagScan st).1 = (stream st).takeWhile is_alphanum ∧
    (tagScan st).2.1 = endChar ((stream st).dropWhile is_alphanum) ∧
    stream (tagScan st).2.2 = (stream st).dropWhile is_alphanum ∧
    wf (tagScan st).2.2 ∧
    (tagScan st).2.2.output = st.output ∧
    (tagScan st).2.2.expanded = st.expanded ∧
    (tagScan st).2.2.regexStarts = st.regexStarts ∧
    (tagScan st).2.2.tagOverflow = st.tagOverflow := by
  obtain ⟨st1, heq, hp, hi, ho, hg⟩ := tagLoop_break 80 [] 0 st hwf hlen
  have ht : tagScan st = ((stream st).takeWhile is_alphanum,
      endChar ((stream st).dropWhile is_alphanum),
      unget (endChar ((stream st).dropWhile is_alphanum)) st1) := by
    unfold tagScan
    rw [heq]
    simp
  rw [ht]
  have hposdw : ∀ x ∈ (stream st).dropWhile is_alphanum, 0 < x := by
    intro x hx
    exact stream_pos st hwf x
      (List.Sublist.mem hx (List.dropWhile_sublist is_alphanum))
  rcases hdw : (stream st).dropWhile is_alphanum with _ | ⟨r, rr⟩
  · have hi' : st1.input = [] := by rw [hi, hdw]; rfl
    refine ⟨rfl, rfl, ?_, ?_, by simpa [unget] using ho, ?_, ?_, ?_⟩
    · simp [unget, stream, endChar, hi']
    · exact ⟨by simp [unget, endChar], by simp [unget, endChar, hi'],
        by simp [unget, hi']⟩
    · simpa [unget] using hg.1.1
    · simpa [unget] using hg.2
    · simpa [unget] using hg.1.2
  · have hrpos : 0 < r := hposdw r (by rw [hdw]; exact List.mem_cons_self r rr)
    have hi' : st1.input = rr := by rw [hi, hdw]; rfl
    refine ⟨rfl, rfl, ?_, ?_, by simpa [unget] using ho, ?_, ?_, ?_⟩
    · simp [unget, stream, endChar, hi', hrpos]
    · refine ⟨by simp [unget, endChar]; omega, ?_, ?_⟩
      · simp [unget, endChar]
        intro hcon
        omega
      · intro x hx
        simp only [unget, hi'] at hx
        exact hposdw x (by rw [hdw]; exact List.mem_cons_of_mem r hx)
    · simpa [unget] using hg.1.1
    · simpa [unget] using hg.2
    · simpa [unget] using hg.1.2

/-- `tagScan` when the identifier run reaches `MAX_TAG_LENGTH`: the
candidate holds the first 80 identifier characters, and the character
pushed back is the 80th of them — which is therefore both stored in the
candidate and left on the stream to be scanned again. -/
theorem tagScan_count (st : St) (hwf : wf st)
    (hlen : 80 ≤ ((stream st).takeWhile is_alphanum).length) :
    (tagScan st).1 = (stream st).take 80 ∧
    (tagScan st).2.1 = (stream st).getD 79 0 ∧
    (tagScan st).2.1 ∈ (tagScan st).1 ∧
    is_alphanum (tagScan st).2.1 = true ∧
    stream (tagScan st).2.2 = (stream st).drop 79 ∧
    wf (tagScan st).2.2 ∧
    (tagScan st).2.2.output = st.output ∧
    (tagScan st).2.2.expanded = st.expanded ∧
    (tagScan st).2.2.regexStarts = st.regexStarts ∧
    (tagScan st).2.2.tagOverflow = true := by
  obtain ⟨st1, heq, hstr, hpos, -, ho, hg⟩ := tagLoop_count 80 [] 0 st hwf hlen
  obtain ⟨hp1, hp2⟩ := hpos (by omega)
  have hlenstream : 80 ≤ (stream st).length :=
    le_trans hlen (List.Sublist.length_le (List.takeWhile_sublist is_alphanum))
  have h79 : 79 < (stream st).length := by omega
  have hgetd : (stream st).getD 79 0 = (stream st)[79] :=
    List.getD_eq_getElem (stream st) 0 h79
  have helt : (stream st)[79] ∈ stream st := List.getElem_mem h79
  have heltpos : 0 < (stream st)[79] := stream_pos st hwf _ helt
  have htw79 : (stream st)[79] ∈ (stream st).take 80 := by
    have h2 : 79 < ((stream st).take 80).length := by simp; omega
    have he : ((stream st).take 80)[79] = (stream st)[79] :=
      List.getElem_take (stream st)
    rw [← he]
    exact List.getElem_mem h2
  have halnum : is_alphanum ((stream st)[79]) = true := by
    have htke : ((stream st).takeWhile is_alphanum).take 80 = (stream st).take 80 := by
      conv_rhs =>
        rw [← List.takeWhile_append_dropWhile (p := is_alphanum) (l := stream st)]
      rw [List.take_append_of_le_length hlen]
    have : (stream st)[79] ∈ (stream st).takeWhile is_alphanum := by
      have : (stream st)[79] ∈ ((stream st).takeWhile is_alphanum).take 80 := by
        rw [htke]; exact htw79
      exact List.mem_of_mem_take this
    exact List.mem_takeWhile_imp this
  have ht : tagScan st = ((stream st).take 80, (stream st).getD 79 0,
      unget ((stream st).getD 79 0)
        { st1 with tagOverflow := st1.tagOverflow || true }) := by
    unfold tagScan
    rw [heq]
    simp only [List.reverse_nil, List.nil_append, if_neg (by omega : ¬ (80 : Nat) = 0)]
  rw [ht]
  simp only [Bool.or_true]
  refine ⟨by simp, by simp, ?_, ?_, ?_, ?_, by simpa [unget] using ho,
    ?_, ?_, by simp [unget]⟩
  · rw [hgetd]; exact htw79
  · rw [hgetd]; exact halnum
  · rw [hgetd, stream_unget_pos _ _ heltpos, List.drop_eq_getElem_cons h79]
    have hRin : ({ st1 with tagOverflow := true } : St).input = st1.input := rfl
    rw [hRin, hp2]
  · rw [hgetd]
    refine wf_unget_pos _ _ heltpos ?_
    intro b hb
    have hRin : ({ st1 with tagOverflow := true } : St).input = st1.input := rfl
    rw [hRin, hp2] at hb
    exact stream_pos st hwf b (List.mem_of_mem_drop hb)
  · simpa [unget] using hg.1.1
  · simpa [unget] using hg.2

/-! ### Effects of `emit` and `emits` -/

@[simp] theorem stream_emit (c : Int) (st : St) :
    stream (emit c st) = stream st := by
  unfold emit; split_ifs <;> simp [stream]

theorem emit_output (c : Int) (st : St) :
    (emit c st).output = st.output ++ heldList c := by
  unfold emit heldList; split_ifs <;> simp

@[simp] theorem emit_regexStarts (c : Int) (st : St) :
    (emit c st).regexStarts = st.regexStarts := by
  unfold emit; split_ifs <;> rfl

@[simp] theorem emit_expanded (c : Int) (st : St) :
    (emit c st).expanded = st.expanded := by
  unfold emit; split_ifs <;> rfl

@[simp] theorem emit_tagOverflow (c : Int) (st : St) :
    (emit c st).tagOverflow = st.tagOverflow := by
  unfold emit; split_ifs <;> rfl

@[simp] theorem emit_line_nr (c : Int) (st : St) :
    (emit c st).line_nr = st.line_nr := by
  unfold emit; split_ifs <;> rfl

theorem wf_emit (c : Int) (st : St) (hwf : wf st) : wf (emit c st) := by
  unfold emit; split_ifs
  · exact hwf
  · exact hwf

@[simp] theorem stream_emits (s : List Int) (st : St) :
    stream (emits s st) = stream st := by
  simp [stream, emits]

@[simp] theorem emits_output (s : List Int) (st : St) :
    (emits s st).output = st.output ++ s := rfl

@[simp] theorem emits_regexStarts (s : List Int) (st : St) :
    (emits s st).regexStarts = st.regexStarts := rfl

@[simp] theorem emits_expanded (s : List Int) (st : St) :
    (emits s st).expanded = st.expanded := rfl

@[simp] theorem emits_tagOverflow (s : List Int) (st : St) :
    (emits s st).tagOverflow = st.tagOverflow := rfl

theorem wf_emits (s : List Int) (st : St) (hwf : wf st) : wf (emits s st) :=
  hwf

theorem peek_fst_expandGhost (st : St) :
    (peek { st with expanded := true }).1 = (peek st).1 := by
  unfold peek
  by_cases hp : st.preview ≠ 0 <;> cases hin : st.input <;> simp [hp, hin]

/-! ### The space-skipping and star-run loops of `stuff` -/

theorem spacesLoop_facts (n : Nat) : ∀ (st st' : St),
    spacesLoop n st = .ok st' → wf st →
    wf st' ∧ st'.output = st.output ∧ Ghost st st' := by
  induction n with
  | zero =>
    intro st st' h _
    simp [spacesLoop] at h
  | succ n ih =>
    intro st st' h hwf
    simp only [spacesLoop] at h
    rcases hs : stream st with _ | ⟨b, rest⟩
    · rw [peek_nil st hwf hs] at h
      simp only at h
      rw [if_neg (by norm_num)] at h
      simp only [Except.ok.injEq] at h
      subst h
      exact ⟨wf_peek_nil st, by simp, ghost_set_preview st _ _⟩
    · have hb : 0 < b := stream_pos st hwf b (hs ▸ List.mem_cons_self b rest)
      rw [peek_cons st hwf b rest hs] at h
      simp only at h
      by_cases hsp : b = 32
      · rw [if_pos hsp] at h
        have hwfP := wf_peek_cons st hwf b rest hs
        have hsP : stream { st with preview := b, input := rest } = b :: rest :=
          stream_preview_pos st b hb rest
        rw [get_consA false _ hwfP b rest hsP] at h
        simp only at h
        obtain ⟨hwf', ho', hg'⟩ := ih _ st' h (wf_afterGetSt false b rest _ hwfP hsP)
        refine ⟨hwf', ?_, ?_⟩
        · rw [ho']; simp
        · exact ghost_trans (ghost_set_preview st _ _)
            (ghost_trans (ghost_afterGetSt false b rest _) hg')
      · rw [if_neg hsp] at h
        simp only [Except.ok.injEq] at h
        subst h
        exact ⟨wf_peek_cons st hwf b rest hs, by simp, ghost_set_preview st _ _⟩

/-- The state carried by a `starLoop` result. -/
def starSt : StarRes → St
  | .term s => s
  | .cont s => s

@[simp] theorem starSt_term (s : St) : starSt (.term s) = s := rfl

@[simp] theorem starSt_cont (s : St) : starSt (.cont s) = s := rfl

theorem starLoop_facts (n : Nat) : ∀ (paren : Int) (st : St) (r : StarRes),
    starLoop n paren st = .ok r → wf st →
    wf (starSt r) ∧ Ghost st (starSt r) ∧
      ∃ d, (starSt r).output = st.output ++ d := by
  induction n with
  | zero =>
    intro paren st r h _
    simp [starLoop] at h
  | succ n ih =>
    intro paren st r h hwf
    simp only [starLoop] at h
    rcases hs : stream st with _ | ⟨b, rest⟩
    · rw [peek_nil st hwf hs] at h
      simp only at h
      rw [if_neg (by norm_num)] at h
      simp only [Except.ok.injEq] at h
      subst h
      exact ⟨wf_peek_nil st, ghost_set_preview st _ _, ⟨[], by simp⟩⟩
    · have hb : 0 < b := stream_pos st hwf b (hs ▸ List.mem_cons_self b rest)
      rw [peek_cons st hwf b rest hs] at h
      simp only at h
      by_cases hstar : b = 42
      · rw [if_pos hstar] at h
        have hwfP := wf_peek_cons st hwf b rest hs
        have hsP : stream { st with preview := b, input := rest } = b :: rest :=
          stream_preview_pos st b hb rest
        rw [get_consA false _ hwfP b rest hsP] at h
        simp only at h
        have hwfA := wf_afterGetSt false b rest _ hwfP hsP
        rcases hs2 : stream (afterGetSt false b rest { st with preview := b, input := rest }) with _ | ⟨b2, rest2⟩
        · rw [peek_nil _ hwfA hs2] at h
          simp only at h
          rw [if_neg (by norm_num)] at h
          obtain ⟨hwf', hg', ho'⟩ := ih paren _ r h (wf_emit 42 _ (wf_peek_nil _))
          refine ⟨hwf', ?_, ?_⟩
          · refine ⟨⟨?_, ?_⟩, ?_⟩
            · rw [hg'.1.1]; simp
            · rw [hg'.1.2]; simp
            · rw [hg'.2]; simp
          · obtain ⟨d, hd⟩ := ho'
            refine ⟨42 :: d, ?_⟩
            rw [hd, emit_output]
            simp [heldList]
        · have hb2 : 0 < b2 := stream_pos _ hwfA b2 (hs2 ▸ List.mem_cons_self b2 rest2)
          rw [peek_cons _ hwfA b2 rest2 hs2] at h
          simp only at h
          have hwfP2 := wf_peek_cons _ hwfA b2 rest2 hs2
          by_cases hsl : b2 = 47
          · rw [if_pos hsl] at h
            have hsP2 : stream { (afterGetSt false b rest { st with preview := b, input := rest }) with preview := b2, input := rest2 } = b2 :: rest2 :=
              stream_preview_pos _ b2 hb2 rest2
            rw [get_consA false _ hwfP2 b2 rest2 hsP2] at h
            simp only at h
            by_cases hpar : 0 < paren
            · rw [if_pos hpar] at h
              simp at h
            · rw [if_neg hpar] at h
              simp only [Except.ok.injEq] at h
              subst h
              refine ⟨wf_afterGetSt false b2 rest2 _ hwfP2 hsP2, ?_, ⟨[], by simp⟩⟩
              · exact ghost_trans (ghost_set_preview st _ _)
                  (ghost_trans (ghost_afterGetSt false b rest _)
                    (ghost_trans (ghost_set_preview _ _ _)
                      (ghost_afterGetSt false b2 rest2 _)))
          · rw [if_neg hsl] at h
            obtain ⟨hwf', hg', ho'⟩ := ih paren _ r h (wf_emit 42 _ hwfP2)
            refine ⟨hwf', ?_, ?_⟩
            · refine ⟨⟨?_, ?_⟩, ?_⟩
              · rw [hg'.1.1]; simp
              · rw [hg'.1.2]; simp
              · rw [hg'.2]; simp
            · obtain ⟨d, hd⟩ := ho'
              refine ⟨42 :: d, ?_⟩
              rw [hd, emit_output]
              simp [heldList]
      · rw [if_neg hstar] at h
        simp only [Except.ok.injEq] at h
        subst h
        exact ⟨wf_peek_cons st hwf b rest hs, ghost_set_preview st _ _,
          ⟨[], by simp⟩⟩

/-! ### Output-extension facts for `condition` and `stuff` -/

/-- `b` preserves the two flags and only appends to the output of `a`. -/
def MonoOut (a b : St) : Prop :=
  Flags a b ∧ ∃ d, b.output = a.output ++ d

theorem monoOut_refl (a : St) : MonoOut a a :=
  ⟨flags_refl a, ⟨[], by simp⟩⟩

theorem monoOut_trans {a b c : St} (h1 : MonoOut a b) (h2 : MonoOut b c) :
    MonoOut a c := by
  obtain ⟨f1, d1, hd1⟩ := h1
  obtain ⟨f2, d2, hd2⟩ := h2
  exact ⟨flags_trans f1 f2, d1 ++ d2, by rw [hd2, hd1, List.append_assoc]⟩

theorem echoes_output {a b : St} (h : Echoes a b) :
    ∃ d, b.output = a.output ++ d := by
  obtain ⟨d, -, hd⟩ := h
  exact ⟨d, hd⟩

theorem monoOut_of_echo {a b : St} (he : Echoes a b) (hg : Flags a b) :
    MonoOut a b :=
  ⟨hg, echoes_output he⟩

theorem monoOut_afterGetSt (e : Bool) (b : Int) (rest : List Int) (st : St) :
    MonoOut st (afterGetSt e b rest st) :=
  ⟨⟨by simp, by simp⟩, ⟨(if e then [b] else []), by simp⟩⟩

theorem monoOut_set_preview (st : St) (p : Int) (l : List Int) :
    MonoOut st { st with preview := p, input := l } :=
  ⟨⟨rfl, rfl⟩, ⟨[], by simp⟩⟩

theorem conditionLoop_facts (n : Nat) :
    ∀ (left paren : Int) (st st' : St),
    conditionLoop n left paren st = .ok st' → wf st →
    wf st' ∧ MonoOut st st' := by
  induction n with
  | zero =>
    intro left paren st st' h _
    simp [conditionLoop] at h
  | succ n ih =>
    intro left paren st st' h hwf
    simp only [conditionLoop] at h
    rcases hs : stream st with _ | ⟨b, rest⟩
    · rw [get_nil true st hwf hs] at h
      simp at h
    · have hb : 0 < b := stream_pos st hwf b (hs ▸ List.mem_cons_self b rest)
      rw [get_consA true st hwf b rest hs] at h
      simp only at h
      have hwfA := wf_afterGetSt true b rest st hwf hs
      have hmA := monoOut_afterGetSt true b rest st
      by_cases h1 : b = 40 ∨ b = 123 ∨ b = 91
      · rw [if_pos h1] at h
        obtain ⟨hwf', hm'⟩ := ih _ _ _ st' h hwfA
        exact ⟨hwf', monoOut_trans hmA hm'⟩
      · rw [if_neg h1] at h
        by_cases h2 : b = 41 ∨ b = 125 ∨ b = 93
        · rw [if_pos h2] at h
          by_cases h3 : paren - 1 = 0
          · rw [if_pos h3] at h
            simp only [Except.ok.injEq] at h
            subst h
            exact ⟨hwfA, hmA⟩
          · rw [if_neg h3] at h
            obtain ⟨hwf', hm'⟩ := ih _ _ _ st' h hwfA
            exact ⟨hwf', monoOut_trans hmA hm'⟩
        · rw [if_neg h2] at h
          rw [if_neg (by omega : ¬ b = -1)] at h
          by_cases h4 : b = 39 ∨ b = 34 ∨ b = 96
          · rw [if_pos h4] at h
            rcases hstr : string n b true (afterGetSt true b rest st) with e | st2
            · rw [hstr] at h
              simp at h
            · rw [hstr] at h
              obtain ⟨hwf2, he2, hg2⟩ := stringLoop_echo n b true
                (afterGetSt true b rest st).line_nr _ st2 hstr hwfA
              obtain ⟨hwf', hm'⟩ := ih _ _ _ st' h hwf2
              exact ⟨hwf', monoOut_trans hmA
                (monoOut_trans (monoOut_of_echo he2 (ghost_flags hg2)) hm')⟩
          · rw [if_neg h4] at h
            by_cases h5 : b = 47
            · rw [if_pos h5] at h
              rcases hs2 : stream (afterGetSt true b rest st) with _ | ⟨p, r2⟩
              · rw [peek_nil _ hwfA hs2] at h
                simp only at h
                rw [if_neg (by norm_num)] at h
                by_cases h6 : pre_regexp left = true
                · rw [if_pos h6] at h
                  rcases hre : regexp n true { (afterGetSt true b rest st) with preview := -1, input := ([] : List Int) } with e | st3
                  · rw [hre] at h
                    simp at h
                  · rw [hre] at h
                    obtain ⟨hwf3, he3, hf3, -⟩ := regexp_echo n true _ st3 hre (wf_peek_nil _)
                    obtain ⟨hwf', hm'⟩ := ih _ _ _ st' h hwf3
                    exact ⟨hwf', monoOut_trans hmA
                      (monoOut_trans (monoOut_set_preview _ _ _)
                        (monoOut_trans (monoOut_of_echo he3 hf3) hm'))⟩
                · rw [if_neg h6] at h
                  obtain ⟨hwf', hm'⟩ := ih _ _ _ st' h (wf_peek_nil _)
                  exact ⟨hwf', monoOut_trans hmA
                    (monoOut_trans (monoOut_set_preview _ _ _) hm')⟩
              · have hp : 0 < p := stream_pos _ hwfA p (hs2 ▸ List.mem_cons_self p r2)
                rw [peek_cons _ hwfA p r2 hs2] at h
                simp only at h
                by_cases h6 : p = 47 ∨ p = 42
                · rw [if_pos h6] at h
                  simp at h
                · rw [if_neg h6] at h
                  have hwfP := wf_peek_cons _ hwfA p r2 hs2
                  by_cases h7 : pre_regexp left = true
                  · rw [if_pos h7] at h
                    rcases hre : regexp n true { (afterGetSt true b rest st) with preview := p, input := r2 } with e | st3
                    · rw [hre] at h
                      simp at h
                    · rw [hre] at h
                      obtain ⟨hwf3, he3, hf3, -⟩ := regexp_echo n true _ st3 hre hwfP
                      obtain ⟨hwf', hm'⟩ := ih _ _ _ st' h hwf3
                      exact ⟨hwf', monoOut_trans hmA
                        (monoOut_trans (monoOut_set_preview _ _ _)
                          (monoOut_trans (monoOut_of_echo he3 hf3) hm'))⟩
                  · rw [if_neg h7] at h
                    obtain ⟨hwf', hm'⟩ := ih _ _ _ st' h hwfP
                    exact ⟨hwf', monoOut_trans hmA
                      (monoOut_trans (monoOut_set_preview _ _ _) hm')⟩
            · rw [if_neg h5] at h
              by_cases h8 : b = 42
              · rw [if_pos h8] at h
                rcases hs2 : stream (afterGetSt true b rest st) with _ | ⟨p, r2⟩
                · rw [peek_nil _ hwfA hs2] at h
                  simp only at h
                  rw [if_neg (by norm_num)] at h
                  obtain ⟨hwf', hm'⟩ := ih _ _ _ st' h (wf_peek_nil _)
                  exact ⟨hwf', monoOut_trans hmA
                    (monoOut_trans (monoOut_set_preview _ _ _) hm')⟩
                · have hp : 0 < p := stream_pos _ hwfA p (hs2 ▸ List.mem_cons_self p r2)
                  rw [peek_cons _ hwfA p r2 hs2] at h
                  simp only at h
                  by_cases h9 : p = 47
                  · rw [if_pos h9] at h
                    simp at h
                  · rw [if_neg h9] at h
                    obtain ⟨hwf', hm'⟩ := ih _ _ _ st' h (wf_peek_cons _ hwfA p r2 hs2)
                    exact ⟨hwf', monoOut_trans hmA
                      (monoOut_trans (monoOut_set_preview _ _ _) hm')⟩
              · rw [if_neg h8] at h
                obtain ⟨hwf', hm'⟩ := ih _ _ _ st' h hwfA
                exact ⟨hwf', monoOut_trans hmA hm'⟩

theorem stuffLoop_facts (n : Nat) :
    ∀ (left paren : Int) (st st' : St),
    stuffLoop n left paren st = .ok st' → wf st →
    wf st' ∧ MonoOut st st' := by
  induction n with
  | zero =>
    intro left paren st st' h _
    simp [stuffLoop] at h
  | succ n ih =>
    intro left paren st st' h hwf
    simp only [stuffLoop] at h
    rcases hstar : starLoop n paren st with e | r
    · rw [hstar] at h
      simp at h
    · rw [hstar] at h
      obtain ⟨hwf1, hg1, d1, hd1⟩ := starLoop_facts n paren st r hstar hwf
      have hm1 : MonoOut st (starSt r) := ⟨ghost_flags hg1, d1, hd1⟩
      rcases r with st1 | st1
      · simp only [starSt_term] at hwf1 hm1
        simp only at h
        simp only [Except.ok.injEq] at h
        subst h
        exact ⟨hwf1, hm1⟩
      · simp only [starSt_cont] at hwf1 hm1
        simp only at h
        rcases hs : stream st1 with _ | ⟨b, rest⟩
        · rw [get_nil true st1 hwf1 hs] at h
          simp at h
        · have hb : 0 < b := stream_pos st1 hwf1 b (hs ▸ List.mem_cons_self b rest)
          rw [get_consA true st1 hwf1 b rest hs] at h
          simp only at h
          have hwfA := wf_afterGetSt true b rest st1 hwf1 hs
          have hmA : MonoOut st (afterGetSt true b rest st1) :=
            monoOut_trans hm1 (monoOut_afterGetSt true b rest st1)
          rw [if_neg (by omega : ¬ b = -1)] at h
          by_cases h4 : b = 39 ∨ b = 34 ∨ b = 96
          · rw [if_pos h4] at h
            rcases hstr : string n b true (afterGetSt true b rest st1) with e | st2
            · rw [hstr] at h
              simp at h
            · rw [hstr] at h
              obtain ⟨hwf2, he2, hg2⟩ := stringLoop_echo n b true
                (afterGetSt true b rest st1).line_nr _ st2 hstr hwfA
              obtain ⟨hwf', hm'⟩ := ih _ _ _ st' h hwf2
              exact ⟨hwf', monoOut_trans hmA
                (monoOut_trans (monoOut_of_echo he2 (ghost_flags hg2)) hm')⟩
          · rw [if_neg h4] at h
            by_cases h1 : b = 40 ∨ b = 123 ∨ b = 91
            · rw [if_pos h1] at h
              obtain ⟨hwf', hm'⟩ := ih _ _ _ st' h hwfA
              exact ⟨hwf', monoOut_trans hmA hm'⟩
            · rw [if_neg h1] at h
              by_cases h2 : b = 41 ∨ b = 125 ∨ b = 93
              · rw [if_pos h2] at h
                by_cases h3 : paren - 1 < 0
                · rw [if_pos h3] at h
                  simp at h
                · rw [if_neg h3] at h
                  obtain ⟨hwf', hm'⟩ := ih _ _ _ st' h hwfA
                  exact ⟨hwf', monoOut_trans hmA hm'⟩
              · rw [if_neg h2] at h
                by_cases h5 : b = 47
                · rw [if_pos h5] at h
                  rcases hs2 : stream (afterGetSt true b rest st1) with _ | ⟨p, r2⟩
                  · rw [peek_nil _ hwfA hs2] at h
                    simp only at h
                    rw [if_neg (by norm_num)] at h
                    by_cases h6 : pre_regexp left = true
                    · rw [if_pos h6] at h
                      rcases hre : regexp n true { (afterGetSt true b rest st1) with preview := -1, input := ([] : List Int) } with e | st3
                      · rw [hre] at h
                        simp at h
                      · rw [hre] at h
                        obtain ⟨hwf3, he3, hf3, -⟩ := regexp_echo n true _ st3 hre (wf_peek_nil _)
                        obtain ⟨hwf', hm'⟩ := ih _ _ _ st' h hwf3
                        exact ⟨hwf', monoOut_trans hmA
                          (monoOut_trans (monoOut_set_preview _ _ _)
                            (monoOut_trans (monoOut_of_echo he3 hf3) hm'))⟩
                    · rw [if_neg h6] at h
                      obtain ⟨hwf', hm'⟩ := ih _ _ _ st' h (wf_peek_nil _)
                      exact ⟨hwf', monoOut_trans hmA
                        (monoOut_trans (monoOut_set_preview _ _ _) hm')⟩
                  · have hp : 0 < p := stream_pos _ hwfA p (hs2 ▸ List.mem_cons_self p r2)
                    rw [peek_cons _ hwfA p r2 hs2] at h
                    simp only at h
                    by_cases h6 : p = 47 ∨ p = 42
                    · rw [if_pos h6] at h
                      simp at h
                    · rw [if_neg h6] at h
                      have hwfP := wf_peek_cons _ hwfA p r2 hs2
                      by_cases h7 : pre_regexp left = true
                      · rw [if_pos h7] at h
                        rcases hre : regexp n true { (afterGetSt true b rest st1) with preview := p, input := r2 } with e | st3
                        · rw [hre] at h
                          simp at h
                        · rw [hre] at h
                          obtain ⟨hwf3, he3, hf3, -⟩ := regexp_echo n true _ st3 hre hwfP
                          obtain ⟨hwf', hm'⟩ := ih _ _ _ st' h hwf3
                          exact ⟨hwf', monoOut_trans hmA
                            (monoOut_trans (monoOut_set_preview _ _ _)
                              (monoOut_trans (monoOut_of_echo he3 hf3) hm'))⟩
                      · rw [if_neg h7] at h
                        obtain ⟨hwf', hm'⟩ := ih _ _ _ st' h hwfP
                        exact ⟨hwf', monoOut_trans hmA
                          (monoOut_trans (monoOut_set_preview _ _ _) hm')⟩
                · rw [if_neg h5] at h
                  obtain ⟨hwf', hm'⟩ := ih _ _ _ st' h hwfA
                  exact ⟨hwf', monoOut_trans hmA hm'⟩

theorem condition_facts (fuel : Nat) (st st' : St)
    (h : condition fuel st = .ok st') (hwf : wf st) :
    wf st' ∧ MonoOut st st' :=
  conditionLoop_facts fuel 123 0 st st' h hwf

theorem stuff_facts (fuel : Nat) (st st' : St)
    (h : stuff fuel st = .ok st') (hwf : wf st) :
    wf st' ∧ MonoOut st st' := by
  unfold stuff at h
  rcases hsp : spacesLoop fuel st with e | st1 <;> rw [hsp] at h
  · simp at h
  · obtain ⟨hwf1, ho1, hg1⟩ := spacesLoop_facts fuel st st1 hsp hwf
    obtain ⟨hwf', hm'⟩ := stuffLoop_facts fuel 123 0 st1 st' h hwf1
    exact ⟨hwf', monoOut_trans ⟨ghost_flags hg1, [], by simp [ho1]⟩ hm'⟩

/-! ### The macro expander emits one of the four shapes -/

theorem wf_setExpanded (st : St) (hwf : wf st) :
    wf { st with expanded := true } := hwf

theorem stream_setExpanded (st : St) :
    stream { st with expanded := true } = stream st := rfl

/-- Full description of a successful `expand`: the output grows by an
optional `if (condition) ` header (exactly when the peeked character is
an open parenthesis), then an open brace, then either
`method(stuff);BRACE` when a method is bound or `stuffBRACE` when not. -/
theorem expand_spec (fuel : Nat) (m : List Int) (st st' : St)
    (h : expand fuel m st = .ok st') (hwf : wf st) :
    wf st' ∧ st'.tagOverflow = st.tagOverflow ∧ st'.expanded = true ∧
    ∃ condOut stuffOut, st'.output = st.output ++
      (if (peek st).1 = 40 then [105, 102, 32] ++ condOut ++ [32] else []) ++
      [123] ++
      (if m ≠ [] then m ++ [40] ++ stuffOut ++ [41, 59, 125]
       else stuffOut ++ [125]) := by
  unfold expand at h
  simp only at h
  have hwfg : wf { st with expanded := true } := wf_setExpanded st hwf
  have hpeq := peek_fst_expandGhost st
  by_cases hp40 : (peek { st with expanded := true }).1 = 40
  · rw [if_pos hp40] at h
    rcases hcond : condition fuel
        (emits [105, 102, 32] (peek { st with expanded := true }).2) with e | st1
    · rw [hcond] at h
      simp at h
    · rw [hcond] at h
      simp only at h
      have hwfP : wf (peek { st with expanded := true }).2 := by
        rcases hsg : stream st with _ | ⟨b, rest⟩
        · rw [peek_nil _ hwfg (by rw [stream_setExpanded]; exact hsg)]
          exact wf_peek_nil _
        · have hb : 0 < b := stream_pos st hwf b (hsg ▸ List.mem_cons_self b rest)
          rw [peek_cons _ hwfg b rest (by rw [stream_setExpanded]; exact hsg)]
          exact wf_peek_cons _ hwfg b rest (by rw [stream_setExpanded]; exact hsg)
      obtain ⟨hwf1, hm1⟩ := condition_facts fuel _ st1 hcond
        (wf_emits _ _ hwfP)
      by_cases hm : m ≠ []
      · rw [if_pos hm] at h
        rcases hstf : stuff fuel (emit 40 (emits m (emit 123 (emit 32 st1)))) with e | st3
        · rw [hstf] at h
          simp at h
        · rw [hstf] at h
          simp only [Except.ok.injEq] at h
          subst h
          obtain ⟨hwf3, hm3⟩ := stuff_facts fuel _ st3 hstf
            (wf_emit 40 _ (wf_emits m _ (wf_emit 123 _ (wf_emit 32 _ hwf1))))
          obtain ⟨f1, d1, hd1⟩ := hm1
          obtain ⟨f3, d3, hd3⟩ := hm3
          refine ⟨wf_emits _ _ hwf3, ?_, ?_, d1, d3, ?_⟩
          · rw [emits_tagOverflow, f3.2, emit_tagOverflow, emits_tagOverflow,
              emit_tagOverflow, emit_tagOverflow, f1.2, emits_tagOverflow,
              peek_tagOverflow]
          · rw [emits_expanded, f3.1, emit_expanded, emits_expanded,
              emit_expanded, emit_expanded, f1.1, emits_expanded,
              peek_expanded]
          · rw [if_pos (by rw [← hpeq]; exact hp40), if_pos hm]
            rw [emits_output, hd3, emit_output, emits_output, emit_output,
              emit_output, hd1, emits_output, peek_output]
            simp [heldList]
      · rw [if_neg hm] at h
        rcases hstf : stuff fuel (emit 123 (emit 32 st1)) with e | st3
        · rw [hstf] at h
          simp at h
        · rw [hstf] at h
          simp only [Except.ok.injEq] at h
          subst h
          obtain ⟨hwf3, hm3⟩ := stuff_facts fuel _ st3 hstf
            (wf_emit 123 _ (wf_emit 32 _ hwf1))
          obtain ⟨f1, d1, hd1⟩ := hm1
          obtain ⟨f3, d3, hd3⟩ := hm3
          refine ⟨wf_emit 125 _ hwf3, ?_, ?_, d1, d3, ?_⟩
          · rw [emit_tagOverflow, f3.2, emit_tagOverflow, emit_tagOverflow,
              f1.2, emits_tagOverflow, peek_tagOverflow]
          · rw [emit_expanded, f3.1, emit_expanded, emit_expanded, f1.1,
              emits_expanded, peek_expanded]
          · rw [if_pos (by rw [← hpeq]; exact hp40), if_neg hm]
            rw [emit_output, hd3, emit_output, emit_output, hd1,
              emits_output, peek_output]
            simp [heldList]
  · rw [if_neg hp40] at h
    simp only at h
    have hwfP : wf (peek { st with expanded := true }).2 := by
      rcases hsg : stream st with _ | ⟨b, rest⟩
      · rw [peek_nil _ hwfg (by rw [stream_setExpanded]; exact hsg)]
        exact wf_peek_nil _
      · have hb : 0 < b := stream_pos st hwf b (hsg ▸ List.mem_cons_self b rest)
        rw [peek_cons _ hwfg b rest (by rw [stream_setExpanded]; exact hsg)]
        exact wf_peek_cons _ hwfg b rest (by rw [stream_setExpanded]; exact hsg)
    by_cases hm : m ≠ []
    · rw [if_pos hm] at h
      rcases hstf : stuff fuel (emit 40 (emits m (emit 123 (peek { st with expanded := true }).2))) with e | st3
      · rw [hstf] at h
        simp at h
      · rw [hstf] at h
        simp only [Except.ok.injEq] at h
        subst h
        obtain ⟨hwf3, hm3⟩ := stuff_facts fuel _ st3 hstf
          (wf_emit 40 _ (wf_emits m _ (wf_emit 123 _ hwfP)))
        obtain ⟨f3, d3, hd3⟩ := hm3
        refine ⟨wf_emits _ _ hwf3, ?_, ?_, [], d3, ?_⟩
        · rw [emits_tagOverflow, f3.2, emit_tagOverflow, emits_tagOverflow,
            emit_tagOverflow, peek_tagOverflow]
        · rw [emits_expanded, f3.1, emit_expanded, emits_expanded,
            emit_expanded, peek_expanded]
        · rw [if_neg (by rw [← hpeq]; exact hp40), if_pos hm]
          rw [emits_output, hd3, emit_output, emits_output, emit_output,
            peek_output]
          simp [heldList]
    · rw [if_neg hm] at h
      rcases hstf : stuff fuel (emit 123 (peek { st with expanded := true }).2) with e | st3
      · rw [hstf] at h
        simp at h
      · rw [hstf] at h
        simp only [Except.ok.injEq] at h
        subst h
        obtain ⟨hwf3, hm3⟩ := stuff_facts fuel _ st3 hstf
          (wf_emit 123 _ hwfP)
        obtain ⟨f3, d3, hd3⟩ := hm3
        refine ⟨wf_emit 125 _ hwf3, ?_, ?_, [], d3, ?_⟩
        · rw [emit_tagOverflow, f3.2, emit_tagOverflow, peek_tagOverflow]
        · rw [emit_expanded, f3.1, emit_expanded, peek_expanded]
        · rw [if_neg (by rw [← hpeq]; exact hp40), if_neg hm]
          rw [emit_output, hd3, emit_output, peek_output]
          simp [heldList]

/-! ### Case-free descriptions of `peek` and non-echoing `get` -/

theorem peek_split (st : St) (hwf : wf st) :
    ∃ p P, peek st = (p, P) ∧ wf P ∧ stream P = stream st ∧
      P.output = st.output ∧ Ghost st P ∧ P.line_nr = st.line_nr ∧
      (p = -1 ∨ 0 < p) ∧ (p = -1 → stream st = []) ∧
      (0 < p → ∃ r0, stream st = p :: r0) := by
  rcases hs : stream st with _ | ⟨b, rest⟩
  · refine ⟨-1, _, peek_nil st hwf hs, wf_peek_nil st, ?_, by simp,
      ghost_set_preview st _ _, by simp, Or.inl rfl, fun _ => rfl, ?_⟩
    · simp [stream]
    · intro hcon; omega
  · have hb : 0 < b := stream_pos st hwf b (hs ▸ List.mem_cons_self b rest)
    refine ⟨b, _, peek_cons st hwf b rest hs, wf_peek_cons st hwf b rest hs,
      ?_, by simp, ghost_set_preview st _ _, by simp, Or.inr hb, ?_, ?_⟩
    · exact stream_preview_pos st b hb rest
    · exact fun hcon => absurd hcon (by omega)
    · intro _; exact ⟨rest, rfl⟩

theorem getFalse_split (st : St) (hwf : wf st) :
    ∃ c1 st1, get false st = (c1, st1) ∧ wf st1 ∧
      (c1 = -1 → stream st1 = []) ∧
      heldList c1 ++ stream st1 = stream st ∧
      st1.output = st.output ∧ Ghost st st1 ∧ (c1 = -1 ∨ 0 < c1) := by
  rcases hs : stream st with _ | ⟨b, rest⟩
  · refine ⟨-1, _, get_nil false st hwf hs, ⟨by simp, by simp, by simp⟩,
      ?_, ?_, by simp, ⟨⟨by simp, by simp⟩, by simp⟩, Or.inl rfl⟩
    · intro _; simp [stream]
    · simp [stream, heldList]
  · have hb : 0 < b := stream_pos st hwf b (hs ▸ List.mem_cons_self b rest)
    refine ⟨b, _, get_consA false st hwf b rest hs,
      wf_afterGetSt false b rest st hwf hs, ?_, ?_, by simp,
      ghost_afterGetSt false b rest st, Or.inr hb⟩
    · exact fun hcon => absurd hcon (by omega)
    · simp [heldList, hb]

/-! ### One iteration of the main scan loop echoes exactly what it
consumes, as long as no macro expansion and no tag-length overflow
happens -/

theorem processStep_echo (fuel : Nat) (regs : Reg) (c left : Int) (st : St)
    (r : StepRes) (h : processStep fuel regs c left st = .ok r)
    (hwf : wf st) :
    (∀ st1, r = .done st1 → st1 = st ∧ c = -1) ∧
    (∀ c1 l1 st1, r = .next c1 l1 st1 →
      wf st1 ∧ (c1 = -1 → stream st1 = []) ∧ (c1 = -1 ∨ 0 ≤ c1) ∧
      (st.expanded = true → st1.expanded = true) ∧
      (st.tagOverflow = true → st1.tagOverflow = true) ∧
      (st1.expanded = false → st1.tagOverflow = false →
        ∃ d, heldList c ++ stream st = d ++ heldList c1 ++ stream st1 ∧
          st1.output = st.output ++ d)) := by
  unfold processStep at h
  by_cases hc1 : c = -1
  · rw [if_pos hc1] at h
    simp only [Except.ok.injEq] at h
    subst h
    constructor
    · intro st1 hd
      cases hd
      exact ⟨rfl, hc1⟩
    · intro c1 l1 st1 hn
      simp at hn
  · rw [if_neg hc1] at h
    by_cases hq : c = 39 ∨ c = 34 ∨ c = 96
    · rw [if_pos hq] at h
      rcases hstr : string fuel c false (emit c st) with e | stS <;> rw [hstr] at h
      · simp at h
      · simp only [Except.ok.injEq] at h
        subst h
        obtain ⟨hwfS, heS, hgS⟩ := stringLoop_echo fuel c false
          (emit c st).line_nr _ stS hstr (wf_emit c st hwf)
        constructor
        · intro st1 hd; simp at hd
        · intro c1 l1 st1 hn
          rw [StepRes.next.injEq] at hn
          obtain ⟨hc1', -, hst'⟩ := hn
          subst hc1'; subst hst'
          obtain ⟨dS, hdS1, hdS2⟩ := heS
          rw [stream_emit] at hdS1
          refine ⟨hwfS, by intro hcon; exact absurd hcon.symm (by norm_num),
            Or.inr (by norm_num), ?_, ?_, ?_⟩
          · intro he; rw [hgS.1.1, emit_expanded]; exact he
          · intro ht; rw [hgS.1.2, emit_tagOverflow]; exact ht
          · intro _ _
            refine ⟨heldList c ++ dS, ?_, ?_⟩
            · rw [hdS1]
              simp [heldList, List.append_assoc]
            · rw [hdS2, emit_output]
              simp [List.append_assoc]
    · rw [if_neg hq] at h
      by_cases hsl : c = 47
      · rw [if_pos hsl] at h
        obtain ⟨p, P, hpk, hwfP, hsP, hoP, hgP, hlnP, hpd, hpnil, hpcons⟩ :=
          peek_split st hwf
        rw [hpk] at h
        simp only at h
        by_cases hp47 : p = 47
        · -- line comment
          rw [if_pos hp47] at h
          rcases hlc : lineCommentLoop fuel (emit 47 P) with e | stL <;> rw [hlc] at h
          · simp at h
          · obtain ⟨hwfL, heL, hgL⟩ := lineCommentLoop_echo fuel _ stL hlc
              (wf_emit 47 P hwfP)
            obtain ⟨c1, st1, hg1, hwf1, hnil1, hstream1, ho1, hgh1, hd1⟩ :=
              getFalse_split stL hwfL
            simp only at h
            rw [hg1] at h
            simp only [Except.ok.injEq] at h
            subst h
            constructor
            · intro st2 hd; simp at hd
            · intro c2 l2 st2 hn
              rw [StepRes.next.injEq] at hn
              obtain ⟨hc2', -, hst2'⟩ := hn
              subst hc2'; subst hst2'
              obtain ⟨dL, hdL1, hdL2⟩ := heL
              rw [stream_emit, hsP] at hdL1
              refine ⟨hwf1, hnil1, by rcases hd1 with h1 | h1; exact Or.inl h1; exact Or.inr (by omega), ?_, ?_, ?_⟩
              · intro he
                rw [hgh1.1.1, hgL.1.1, emit_expanded, hgP.1.1]; exact he
              · intro ht
                rw [hgh1.1.2, hgL.1.2, emit_tagOverflow, hgP.1.2]; exact ht
              · intro _ _
                refine ⟨[47] ++ dL, ?_, ?_⟩
                · rw [hsl]
                  rw [hdL1, ← hstream1]
                  simp [heldList, List.append_assoc]
                · rw [ho1, hdL2, emit_output, hoP]
                  simp [heldList, List.append_assoc]
        · rw [if_neg hp47] at h
          obtain ⟨p2, P2, hpk2, hwfP2, hsP2, hoP2, hgP2, hlnP2, hpd2, hpnil2, hpcons2⟩ :=
            peek_split P hwfP
          rw [hpk2] at h
          simp only at h
          by_cases hp42 : p2 = 42
          · -- a slash-star comment
            rw [if_pos hp42] at h
            obtain ⟨r0, hr0⟩ : ∃ r0, stream P = 42 :: r0 := by
              have := hpcons2 (by omega)
              rwa [hp42] at this
            obtain ⟨cstar, stA, hgA, hwfA, hnilA, hstreamA, hoA, hghA, hdA⟩ :=
              getFalse_split P2 hwfP2
            rw [hgA] at h
            simp only at h
            have hsA : stream stA = r0 := by
              have h1 : heldList cstar ++ stream stA = 42 :: r0 := by
                rw [hstreamA, hsP2, hr0]
              rcases hdA with hd | hd
              · exfalso
                rw [hd, hnilA hd] at h1
                simp [heldList] at h1
              · rw [heldList, if_pos hd] at h1
                exact (by simpa using h1 : cstar = 42 ∧ stream stA = r0).2
            by_cases hlen : ((stream stA).takeWhile is_alphanum).length < 80
            · -- the identifier run stops before the bound
              obtain ⟨htag1, htag2, htag3, htag4, htag5, htag6, htag7, htag8⟩ :=
                tagScan_break stA hwfA hlen
              rcases hmt : (if (tagScan stA).1 = [] then none
                  else matchTag regs (tagScan stA).1) with _ | m
              · -- no match: the raw comment is echoed
                rw [hmt] at h
                rcases hraw : rawCommentLoop fuel (tagScan stA).2.1
                    (emits (tagScan stA).1 (emits [47, 42] (tagScan stA).2.2)) with e | stR <;>
                  rw [hraw] at h
                · simp at h
                · obtain ⟨hwfR, heR, hgR⟩ := rawCommentLoop_echo fuel _ _ stR hraw
                    (wf_emits _ _ (wf_emits _ _ htag4))
                  obtain ⟨c1, st1, hg1, hwf1, hnil1, hstream1, ho1, hgh1, hd1⟩ :=
                    getFalse_split stR hwfR
                  simp only at h
                  rw [hg1] at h
                  simp only [Except.ok.injEq] at h
                  subst h
                  constructor
                  · intro st2 hd; simp at hd
                  · intro c2 l2 st2 hn
                    rw [StepRes.next.injEq] at hn
                    obtain ⟨hc2', -, hst2'⟩ := hn
                    subst hc2'; subst hst2'
                    obtain ⟨dR, hdR1, hdR2⟩ := heR
                    rw [stream_emits, stream_emits, htag3] at hdR1
                    refine ⟨hwf1, hnil1,
                      by rcases hd1 with h1 | h1; exact Or.inl h1; exact Or.inr (by omega),
                      ?_, ?_, ?_⟩
                    · intro he
                      rw [hgh1.1.1, hgR.1.1, emits_expanded, emits_expanded,
                        htag6, hghA.1.1, hgP2.1.1, hgP.1.1]
                      exact he
                    · intro ht
                      rw [hgh1.1.2, hgR.1.2, emits_tagOverflow, emits_tagOverflow,
                        htag8, hghA.1.2, hgP2.1.2, hgP.1.2]
                      exact ht
                    · intro _ _
                      refine ⟨[47, 42] ++ (tagScan stA).1 ++ dR, ?_, ?_⟩
                      · rw [hsl, ← hsP, hr0]
                        have hsplit : r0 = (tagScan stA).1 ++
                            ((stream stA).dropWhile is_alphanum) := by
                          rw [htag1, ← hsA]
                          exact (List.takeWhile_append_dropWhile
                            (p := is_alphanum) (l := stream stA)).symm
                        rw [hsplit, hdR1, ← hstream1]
                        simp [heldList, List.append_assoc]
                      · rw [ho1, hdR2, emits_output, emits_output, htag5,
                          hoA, hoP2, hoP]
                        simp [List.append_assoc]
              · -- a tag matched: the expander runs and sets the ghost flag
                rw [hmt] at h
                simp only at h
                rcases hexp : expand fuel m (tagScan stA).2.2 with e | stE <;>
                  rw [hexp] at h
                · simp at h
                · obtain ⟨hwfE, htoE, hexE, -⟩ :=
                    expand_spec fuel m _ stE hexp htag4
                  obtain ⟨c1, st1, hg1, hwf1, hnil1, hstream1, ho1, hgh1, hd1⟩ :=
                    getFalse_split stE hwfE
                  simp only at h
                  rw [hg1] at h
                  simp only [Except.ok.injEq] at h
                  subst h
                  constructor
                  · intro st2 hd; simp at hd
                  · intro c2 l2 st2 hn
                    rw [StepRes.next.injEq] at hn
                    obtain ⟨hc2', -, hst2'⟩ := hn
                    subst hc2'; subst hst2'
                    refine ⟨hwf1, hnil1,
                      by rcases hd1 with h1 | h1; exact Or.inl h1; exact Or.inr (by omega),
                      ?_, ?_, ?_⟩
                    · intro _
                      rw [hgh1.1.1, hexE]
                    · intro ht
                      rw [hgh1.1.2, htoE, htag8, hghA.1.2, hgP2.1.2, hgP.1.2]
                      exact ht
                    · intro hcon _
                      exfalso
                      rw [hgh1.1.1, hexE] at hcon
                      exact Bool.true_eq_false.mp hcon
            · -- the identifier run reaches the bound: overflow flag set
              push_neg at hlen
              obtain ⟨htag1, htag2, htag3, htag4, htag5, htag6, htag7, htag8, htag9, htag10⟩ :=
                tagScan_count stA hwfA hlen
              rcases hmt : (if (tagScan stA).1 = [] then none
                  else matchTag regs (tagScan stA).1) with _ | m
              · rw [hmt] at h
                rcases hraw : rawCommentLoop fuel (tagScan stA).2.1
                    (emits (tagScan stA).1 (emits [47, 42] (tagScan stA).2.2)) with e | stR <;>
                  rw [hraw] at h
                · simp at h
                · obtain ⟨hwfR, heR, hgR⟩ := rawCommentLoop_echo fuel _ _ stR hraw
                    (wf_emits _ _ (wf_emits _ _ htag6))
                  obtain ⟨c1, st1, hg1, hwf1, hnil1, hstream1, ho1, hgh1, hd1⟩ :=
                    getFalse_split stR hwfR
                  simp only at h
                  rw [hg1] at h
                  simp only [Except.ok.injEq] at h
                  subst h
                  constructor
                  · intro st2 hd; simp at hd
                  · intro c2 l2 st2 hn
                    rw [StepRes.next.injEq] at hn
                    obtain ⟨hc2', -, hst2'⟩ := hn
                    subst hc2'; subst hst2'
                    refine ⟨hwf1, hnil1,
                      by rcases hd1 with h1 | h1; exact Or.inl h1; exact Or.inr (by omega),
                      ?_, ?_, ?_⟩
                    · intro he
                      rw [hgh1.1.1, hgR.1.1, emits_expanded, emits_expanded,
                        htag8, hghA.1.1, hgP2.1.1, hgP.1.1]
                      exact he
                    · intro _
                      rw [hgh1.1.2, hgR.1.2, emits_tagOverflow,
                        emits_tagOverflow, htag10]
                    · intro _ hcon
                      exfalso
                      rw [hgh1.1.2, hgR.1.2, emits_tagOverflow,
                        emits_tagOverflow, htag10] at hcon
                      exact Bool.true_eq_false.mp hcon
              · rw [hmt] at h
                simp only at h
                rcases hexp : expand fuel m (tagScan stA).2.2 with e | stE <;>
                  rw [hexp] at h
                · simp at h
                · obtain ⟨hwfE, htoE, hexE, -⟩ :=
                    expand_spec fuel m _ stE hexp htag6
                  obtain ⟨c1, st1, hg1, hwf1, hnil1, hstream1, ho1, hgh1, hd1⟩ :=
                    getFalse_split stE hwfE
                  simp only at h
                  rw [hg1] at h
                  simp only [Except.ok.injEq] at h
                  subst h
                  constructor
                  · intro st2 hd; simp at hd
                  · intro c2 l2 st2 hn
                    rw [StepRes.next.injEq] at hn
                    obtain ⟨hc2', -, hst2'⟩ := hn
                    subst hc2'; subst hst2'
                    refine ⟨hwf1, hnil1,
                      by rcases hd1 with h1 | h1; exact Or.inl h1; exact Or.inr (by omega),
                      ?_, ?_, ?_⟩
                    · intro _
                      rw [hgh1.1.1, hexE]
                    · intro _
                      rw [hgh1.1.2, htoE, htag10]
                    · intro hcon _
                      exfalso
                      rw [hgh1.1.1, hexE] at hcon
                      exact Bool.true_eq_false.mp hcon
          · -- a lone slash: division or regexp literal
            rw [if_neg hp42] at h
            by_cases hpre : pre_regexp left = true
            · rw [if_pos hpre] at h
              rcases hre : regexp fuel false (emit 47 P2) with e | stRE <;>
                rw [hre] at h
              · simp at h
              · obtain ⟨hwfRE, heRE, hfRE, -⟩ := regexp_echo fuel false _ stRE hre
                  (wf_emit 47 P2 hwfP2)
                obtain ⟨c1, st1, hg1, hwf1, hnil1, hstream1, ho1, hgh1, hd1⟩ :=
                  getFalse_split stRE hwfRE
                simp only at h
                rw [hg1] at h
                simp only [Except.ok.injEq] at h
                subst h
                constructor
                · intro st2 hd; simp at hd
                · intro c2 l2 st2 hn
                  rw [StepRes.next.injEq] at hn
                  obtain ⟨hc2', -, hst2'⟩ := hn
                  subst hc2'; subst hst2'
                  obtain ⟨dRE, hdRE1, hdRE2⟩ := heRE
                  rw [stream_emit, hsP2, hsP] at hdRE1
                  refine ⟨hwf1, hnil1,
                    by rcases hd1 with h1 | h1; exact Or.inl h1; exact Or.inr (by omega),
                    ?_, ?_, ?_⟩
                  · intro he
                    rw [hgh1.1.1, hfRE.1, emit_expanded, hgP2.1.1, hgP.1.1]
                    exact he
                  · intro ht
                    rw [hgh1.1.2, hfRE.2, emit_tagOverflow, hgP2.1.2, hgP.1.2]
                    exact ht
                  · intro _ _
                    refine ⟨[47] ++ dRE, ?_, ?_⟩
                    · rw [hsl, hdRE1, ← hstream1]
                      simp [heldList, List.append_assoc]
                    · rw [ho1, hdRE2, emit_output, hoP2, hoP]
                      simp [heldList, List.append_assoc]
            · rw [if_neg hpre] at h
              obtain ⟨c1, st1, hg1, hwf1, hnil1, hstream1, ho1, hgh1, hd1⟩ :=
                getFalse_split (emit 47 P2) (wf_emit 47 P2 hwfP2)
              rw [hg1] at h
              simp only [Except.ok.injEq] at h
              subst h
              constructor
              · intro st2 hd; simp at hd
              · intro c2 l2 st2 hn
                rw [StepRes.next.injEq] at hn
                obtain ⟨hc2', -, hst2'⟩ := hn
                subst hc2'; subst hst2'
                rw [stream_emit, hsP2, hsP] at hstream1
                refine ⟨hwf1, hnil1,
                  by rcases hd1 with h1 | h1; exact Or.inl h1; exact Or.inr (by omega),
                  ?_, ?_, ?_⟩
                · intro he
                  rw [hgh1.1.1, emit_expanded, hgP2.1.1, hgP.1.1]; exact he
                · intro ht
                  rw [hgh1.1.2, emit_tagOverflow, hgP2.1.2, hgP.1.2]; exact ht
                · intro _ _
                  refine ⟨[47], ?_, ?_⟩
                  · rw [hsl, ← hstream1]
                    simp [heldList]
                  · rw [ho1, emit_output, hoP2, hoP]
                    simp [heldList]
      · -- an ordinary character: echo it
        rw [if_neg hsl] at h
        simp only at h
        obtain ⟨c1, st1, hg1, hwf1, hnil1, hstream1, ho1, hgh1, hd1⟩ :=
          getFalse_split (emit c st) (wf_emit c st hwf)
        rw [hg1] at h
        simp only [Except.ok.injEq] at h
        subst h
        constructor
        · intro st2 hd; simp at hd
        · intro c2 l2 st2 hn
          rw [StepRes.next.injEq] at hn
          obtain ⟨hc2', -, hst2'⟩ := hn
          subst hc2'; subst hst2'
          rw [stream_emit] at hstream1
          refine ⟨hwf1, hnil1,
            by rcases hd1 with h1 | h1; exact Or.inl h1; exact Or.inr (by omega),
            ?_, ?_, ?_⟩
          · intro he
            rw [hgh1.1.1, emit_expanded]; exact he
          · intro ht
            rw [hgh1.1.2, emit_tagOverflow]; exact ht
          · intro _ _
            refine ⟨heldList c, ?_, ?_⟩
            · rw [← hstream1]
              simp [List.append_assoc]
            · rw [ho1, emit_output]

/-- The ghost flags are monotone along the main loop. -/
theorem processLoop_mono (n : Nat) : ∀ (regs : Reg) (c left : Int)
    (st st' : St), processLoop n regs c left st = .ok st' → wf st →
    (st.expanded = true → st'.expanded = true) ∧
    (st.tagOverflow = true → st'.tagOverflow = true) := by
  induction n with
  | zero =>
    intro regs c left st st' h _
    simp [processLoop] at h
  | succ n ih =>
    intro regs c left st st' h hwf
    simp only [processLoop] at h
    rcases hstep : processStep n regs c left st with e | r <;> rw [hstep] at h
    · simp at h
    · obtain ⟨hdone, hnext⟩ := processStep_echo n regs c left st r hstep hwf
      rcases r with st1 | ⟨c1, l1, st1⟩
      · simp only at h
        simp only [Except.ok.injEq] at h
        subst h
        obtain ⟨hse, -⟩ := hdone _ rfl
        rw [hse]
        exact ⟨id, id⟩
      · simp only at h
        obtain ⟨hwf1, -, -, hme, hmt, -⟩ := hnext c1 l1 st1 rfl
        obtain ⟨ihe, iht⟩ := ih regs c1 l1 st1 st' h hwf1
        exact ⟨fun he => ihe (hme he), fun ht => iht (hmt ht)⟩

/-- The main loop echoes its whole stream exactly, provided no macro was
expanded and no tag scan overflowed during the run. -/
theorem processLoop_echo (n : Nat) : ∀ (regs : Reg) (c left : Int)
    (st st' : St), processLoop n regs c left st = .ok st' → wf st →
    (c = -1 → stream st = []) →
    st'.expanded = false → st'.tagOverflow = false →
    st'.output = st.output ++ heldList c ++ stream st := by
  induction n with
  | zero =>
    intro regs c left st st' h _
    simp [processLoop] at h
  | succ n ih =>
    intro regs c left st st' h hwf hcnil hfe hft
    simp only [processLoop] at h
    rcases hstep : processStep n regs c left st with e | r <;> rw [hstep] at h
    · simp at h
    · obtain ⟨hdone, hnext⟩ := processStep_echo n regs c left st r hstep hwf
      rcases r with st1 | ⟨c1, l1, st1⟩
      · simp only at h
        simp only [Except.ok.injEq] at h
        subst h
        obtain ⟨hse, hce⟩ := hdone _ rfl
        rw [hse, hce, hcnil hce]
        simp [heldList]
      · simp only at h
        obtain ⟨hwf1, hnil1, -, -, -, hecho⟩ := hnext c1 l1 st1 rfl
        obtain ⟨hmono1, hmono2⟩ := processLoop_mono n regs c1 l1 st1 st' h hwf1
        have hex1 : st1.expanded = false := by
          cases hcon : st1.expanded
          · rfl
          · rw [hmono1 hcon] at hfe
            exact hfe
        have hto1 : st1.tagOverflow = false := by
          cases hcon : st1.tagOverflow
          · rfl
          · rw [hmono2 hcon] at hft
            exact hft
        obtain ⟨d, hd', ho'⟩ := hecho hex1 hto1
        have hrest := ih regs c1 l1 st1 st' h hwf1 hnil1 hfe hft
        rw [hrest, ho']
        simp only [List.append_assoc] at hd' ⊢
        rw [hd']

/-- jsdev.c `process` run on a positive-byte input: when it succeeds
without expanding any macro and without any tag-length overflow, the
output is exactly the input. -/
theorem process_echo (fuel : Nat) (regs : Reg) (input : List Int)
    (st' : St) (h : process fuel regs input = .ok st')
    (hpos : ∀ b ∈ input, 0 < b)
    (hexp : st'.expanded = false) (hto : st'.tagOverflow = false) :
    st'.output = input := by
  unfold process at h
  simp only at h
  have hwf0 : wf { mkSt input with line_nr := 1 } := by
    refine ⟨by simp [mkSt], by simp [mkSt], ?_⟩
    intro b hb
    exact hpos b hb
  obtain ⟨c1, st1, hg1, hwf1, hnil1, hstream1, ho1, hgh1, hd1⟩ :=
    getFalse_split { mkSt input with line_nr := 1 } hwf0
  rw [hg1] at h
  simp only at h
  have hout := processLoop_echo fuel regs c1 0 st1 st' h hwf1 hnil1 hexp hto
  rw [hout, ho1, List.append_assoc, hstream1]
  simp [mkSt, stream]

/-! ### Error reporting of the string scanner -/

/-- Whenever the string scanner fails with the unterminated-string
error, the line it reports is the `was` argument: the line on which the
literal began. -/
theorem stringLoop_error_line (n : Nat) :
    ∀ (q : Int) (ic : Bool) (was : Nat) (st : St) (e : Err),
    stringLoop n q ic was st = .error e → e.kind = .unterminatedString →
    e.line = was := by
  induction n with
  | zero =>
    intro q ic was st e h hk
    simp only [stringLoop, Except.error.injEq] at h
    rw [← h] at hk
    simp at hk
  | succ n ih =>
    intro q ic was st e h hk
    simp only [stringLoop] at h
    rcases hg : get true st with ⟨c0, st1⟩
    rw [hg] at h
    simp only at h
    by_cases hq : c0 = q
    · rw [if_pos hq] at h
      simp at h
    · rw [if_neg hq] at h
      rcases hg2 : (if c0 = 92 then get true st1 else (c0, st1)) with ⟨c2, st2⟩
      rw [hg2] at h
      simp only at h
      by_cases hic : ic = true ∧ c2 = 42
      · rw [if_pos hic] at h
        rcases hp : peek st2 with ⟨p, st3⟩
        rw [hp] at h
        simp only at h
        by_cases hp47 : p = 47
        · rw [if_pos hp47] at h
          simp only [Except.error.injEq] at h
          rw [← h] at hk
          simp at hk
        · rw [if_neg hp47] at h
          exact ih q ic was st3 e h hk
      · rw [if_neg hic] at h
        by_cases hm1 : c2 = -1
        · rw [if_pos hm1] at h
          simp only [Except.error.injEq] at h
          rw [← h]
        · rw [if_neg hm1] at h
          exact ih q ic was st2 e h hk

/-- The string scanner fails immediately with the unterminated-string
error when the stream is exhausted (and the sought quote is a real
character). -/
theorem stringLoop_eof (n : Nat) (q : Int) (ic : Bool) (was : Nat)
    (st : St) (hwf : wf st) (hs : stream st = []) (hq : 0 < q) :
    stringLoop (n + 1) q ic was st = .error ⟨.unterminatedString, was⟩ := by
  simp only [stringLoop]
  rw [get_nil true st hwf hs]
  simp only
  rw [if_neg (by omega : ¬ (-1 : Int) = q)]
  simp

/-! ### The unbalanced-stuff error sites -/

/-- Reading a closing bracket at depth 0 in a stuff body fails at once
with the unbalanced-stuff error. -/
theorem stuffLoop_neg_depth (n : Nat) (left paren : Int) (st : St)
    (hwf : wf st) (cb : Int) (rest : List Int)
    (hs : stream st = cb :: rest) (hcb : cb = 41 ∨ cb = 125 ∨ cb = 93)
    (hpar : paren - 1 < 0) :
    stuffLoop (n + 2) left paren st = .error ⟨.unbalancedStuff, st.line_nr⟩ := by
  have hcbpos : 0 < cb := stream_pos st hwf cb (hs ▸ List.mem_cons_self cb rest)
  have hcb42 : ¬ cb = 42 := by rcases hcb with h | h | h <;> omega
  have hstar : starLoop (n + 1) paren st = .ok (.cont { st with preview := cb, input := rest }) := by
    simp only [starLoop]
    rw [peek_cons st hwf cb rest hs]
    simp only
    rw [if_neg hcb42]
  have hsP : stream { st with preview := cb, input := rest } = cb :: rest :=
    stream_preview_pos st cb hcbpos rest
  have hwfP := wf_peek_cons st hwf cb rest hs
  simp only [stuffLoop]
  rw [hstar]
  simp only
  rw [get_consA true _ hwfP cb rest hsP]
  simp only
  rw [if_neg (by omega : ¬ cb = -1)]
  rw [if_neg (by rcases hcb with h | h | h <;> omega :
    ¬ (cb = 39 ∨ cb = 34 ∨ cb = 96))]
  rw [if_neg (by rcases hcb with h | h | h <;> omega :
    ¬ (cb = 40 ∨ cb = 123 ∨ cb = 91))]
  rw [if_pos hcb]
  rw [if_pos hpar]
  have hln : (afterGetSt true cb rest
      { st with preview := cb, input := rest }).line_nr = st.line_nr := by
    rw [afterGetSt_line_nr]
    have : ¬ (cb = 13 ∨ (cb = 10 ∧
        ({ st with preview := cb, input := rest } : St).cr = false)) := by
      rcases hcb with h | h | h <;> simp [h]
    rw [if_neg this]
    simp
  rw [hln]

/-- Recognizing the comment terminator with positive bracket depth in a
stuff body fails with the unbalanced-stuff error instead of closing. -/
theorem stuffLoop_term_unbalanced (n : Nat) (left paren : Int) (st : St)
    (hwf : wf st) (rest : List Int) (hs : stream st = 42 :: 47 :: rest)
    (hpar : 0 < paren) :
    stuffLoop (n + 2) left paren st = .error ⟨.unbalancedStuff, st.line_nr⟩ := by
  have hwfP := wf_peek_cons st hwf 42 (47 :: rest) hs
  have hsP : stream { st with preview := (42 : Int), input := 47 :: rest } =
      42 :: 47 :: rest := stream_preview_pos st 42 (by omega) (47 :: rest)
  have hwfA := wf_afterGetSt false 42 (47 :: rest) _ hwfP hsP
  have hsA : stream (afterGetSt false 42 (47 :: rest)
      { st with preview := (42 : Int), input := 47 :: rest }) = 47 :: rest := by
    simp
  have hwfP2 := wf_peek_cons _ hwfA 47 rest hsA
  have hsP2 : stream { (afterGetSt false 42 (47 :: rest)
      { st with preview := (42 : Int), input := 47 :: rest }) with
        preview := (47 : Int), input := rest } = 47 :: rest :=
    stream_preview_pos _ 47 (by omega) rest
  have hstar : starLoop (n + 1) paren st =
      .error ⟨.unbalancedStuff, st.line_nr⟩ := by
    simp only [starLoop]
    rw [peek_cons st hwf 42 (47 :: rest) hs]
    simp only
    rw [get_consA false _ hwfP 42 (47 :: rest) hsP]
    simp only
    rw [peek_cons _ hwfA 47 rest hsA]
    simp only
    rw [get_consA false _ hwfP2 47 rest hsP2]
    simp only
    rw [if_pos hpar]
    simp only [if_true]
    rw [afterGetSt_line_nr]
    simp only
    rw [afterGetSt_line_nr]
    norm_num
  conv_lhs => rw [stuffLoop]
  rw [hstar]

/-! ### The lone-slash branch of the main loop consults `pre_regexp` -/

/-- `peek` on a state whose pushback slot is already full. -/
theorem peek_of_preview_ne (st : St) (h : st.preview ≠ 0) :
    peek st = (st.preview, st) := by
  simp [peek, h]

/-- On a lone slash (the next character starts neither `//` nor `/*`),
the main loop starts a regexp scan exactly when `pre_regexp` approves
the left-significant character: the ghost counter grows by one in that
case and is untouched otherwise, and the slash itself becomes the new
left-significant character. -/
theorem processStep_slash_regex (fuel : Nat) (regs : Reg) (left : Int)
    (st : St) (b : Int) (rest : List Int) (c1 l1 : Int) (st1 : St)
    (hwf : wf st) (hs : stream st = b :: rest) (hb47 : b ≠ 47)
    (hb42 : b ≠ 42)
    (h : processStep fuel regs 47 left st = .ok (.next c1 l1 st1)) :
    st1.regexStarts = st.regexStarts +
      (if pre_regexp left then 1 else 0) ∧ l1 = 47 := by
  have hb : 0 < b := stream_pos st hwf b (hs ▸ List.mem_cons_self b rest)
  unfold processStep at h
  rw [if_neg (by norm_num : ¬ (47 : Int) = -1),
    if_neg (by norm_num :
      ¬ ((47 : Int) = 39 ∨ (47 : Int) = 34 ∨ (47 : Int) = 96)),
    if_pos rfl] at h
  rw [peek_cons st hwf b rest hs] at h
  simp only at h
  rw [if_neg hb47] at h
  have hP : peek ({ st with preview := b, input := rest } : St) =
      (b, { st with preview := b, input := rest }) := by
    apply peek_of_preview_ne
    simp only
    omega
  rw [hP] at h
  simp only at h
  rw [if_neg hb42] at h
  have hwfP := wf_peek_cons st hwf b rest hs
  by_cases hpre : pre_regexp left = true
  · rw [if_pos hpre] at h
    rcases hre : regexp fuel false
        (emit 47 ({ st with preview := b, input := rest } : St)) with e | st4 <;>
      rw [hre] at h
    · simp at h
    · simp only [Except.ok.injEq, StepRes.next.injEq] at h
      obtain ⟨hc1, hl1, hst1⟩ := h
      have hwfe : wf (emit 47 ({ st with preview := b, input := rest } : St)) :=
        wf_emit _ _ hwfP
      obtain ⟨-, -, -, hrs⟩ := regexp_echo fuel false _ st4 hre hwfe
      refine ⟨?_, hl1.symm⟩
      rw [← hst1, get_regexStarts, hrs]
      simp [hpre]
  · rw [if_neg hpre] at h
    simp only [Except.ok.injEq, StepRes.next.injEq] at h
    obtain ⟨hc1, hl1, hst1⟩ := h
    refine ⟨?_, hl1.symm⟩
    rw [← hst1, get_regexStarts]
    simp [hpre]

/-! ### The configuration parser's identifier loop -/

/-- An identifier character is neither the NUL terminator nor a colon. -/
theorem is_alphanum_ne (c : Int) (h : is_alphanum c = true) :
    c ≠ 0 ∧ c ≠ 58 := by
  constructor <;> rintro rfl <;> exact absurd h (by decide)

/-- When every token character from position `j` on is an identifier
character and the fuel covers them all, the loop copies the rest of the
token and stops on the NUL terminator. -/
theorem cfgLoop_all (tok : List Int) : ∀ (n j : Nat) (c0 : Int)
    (acc : List Int), j ≤ tok.length → tok.length - j < n →
    (∀ (k : Nat) (hk : k < tok.length), j ≤ k →
      is_alphanum (tok.get ⟨k, hk⟩) = true) →
    cfgLoop tok n j c0 acc = (acc.reverse ++ tok.drop j, tok.length, 0) := by
  intro n
  induction n with
  | zero => intro j c0 acc hj hn halnum; omega
  | succ n ih =>
    intro j c0 acc hj hn halnum
    by_cases hjl : j < tok.length
    · have hget : tokGet tok j = tok.get ⟨j, hjl⟩ := by
        unfold tokGet
        simpa using List.getD_eq_getElem tok 0 hjl
      have halj : is_alphanum (tokGet tok j) = true := by
        rw [hget]; exact halnum j hjl le_rfl
      simp only [cfgLoop]
      rw [if_pos halj]
      rw [ih (j + 1) (tokGet tok j) (tokGet tok j :: acc) hjl (by omega)
        (fun k hk hjk => halnum k hk (by omega))]
      rw [hget]
      have hd : tok.drop j = tok.get ⟨j, hjl⟩ :: tok.drop (j + 1) := by
        exact List.drop_eq_getElem_cons hjl
      rw [hd]
      simp [-List.getElem_cons_drop]
    · have hje : j = tok.length := by omega
      have hget : tokGet tok j = 0 := by
        unfold tokGet
        apply List.getD_eq_default
        omega
      simp only [cfgLoop]
      rw [if_neg (by rw [hget]; decide)]
      rw [hget, hje, List.drop_length]
      simp

/-- When the next `n ≥ 1` token characters are all identifier
characters, the loop runs out of fuel having copied exactly those `n`
characters, leaving the `n`-th of them (not a terminator) in its
character variable. -/
theorem cfgLoop_full (tok : List Int) : ∀ (n j : Nat) (c0 : Int)
    (acc : List Int), 1 ≤ n → j + n ≤ tok.length →
    (∀ (k : Nat) (hk : k < tok.length), j ≤ k → k < j + n →
      is_alphanum (tok.get ⟨k, hk⟩) = true) →
    cfgLoop tok n j c0 acc =
      (acc.reverse ++ (tok.drop j).take n, j + n, tok.getD (j + n - 1) 0) := by
  intro n
  induction n with
  | zero => intro j c0 acc h1; omega
  | succ n ih =>
    intro j c0 acc h1 hlen halnum
    have hjl : j < tok.length := by omega
    have hget : tokGet tok j = tok.get ⟨j, hjl⟩ := by
      unfold tokGet
      simpa using List.getD_eq_getElem tok 0 hjl
    have halj : is_alphanum (tokGet tok j) = true := by
      rw [hget]; exact halnum j hjl le_rfl (by omega)
    have hd : tok.drop j = tok.get ⟨j, hjl⟩ :: tok.drop (j + 1) := by
      exact List.drop_eq_getElem_cons hjl
    simp only [cfgLoop]
    rw [if_pos halj]
    rcases Nat.eq_zero_or_pos n with hn0 | hn1
    · subst hn0
      simp only [cfgLoop]
      rw [hget, hd]
      have hgd : tok.getD (j + 1 - 1) 0 = tok.get ⟨j, hjl⟩ := by
        simpa using List.getD_eq_getElem tok 0 hjl
      rw [hgd]
      simp [-List.getElem_cons_drop]
    · rw [ih (j + 1) (tokGet tok j) (tokGet tok j :: acc) hn1 (by omega)
        (fun k hk h1k h2k => halnum k hk (by omega) (by omega))]
      rw [hget, hd]
      have harith : j + 1 + n = j + (n + 1) := by omega
      rw [List.take_succ_cons, harith]
      simp [-List.getElem_cons_drop]

/-- A nonempty all-identifier token of at most 79 characters is accepted
as a bare tag name. -/
theorem parseToken_accept (tok : List Int) (hne : tok ≠ [])
    (hlen : tok.length ≤ 79) (halnum : ∀ c ∈ tok, is_alphanum c = true) :
    parseToken tok = .ok (tok, []) := by
  have h := cfgLoop_all tok 80 0 0 [] (by omega) (by omega)
    (fun k hk _ => halnum _ (tok.get_mem k hk))
  unfold parseToken
  rw [h]
  simp [hne]

/-- A token whose first 80 characters are all identifier characters is
rejected: the loop stops by count with an identifier character (neither
NUL nor a colon) in hand. -/
theorem parseToken_reject80 (tok : List Int) (hlen : 80 ≤ tok.length)
    (halnum : ∀ c ∈ tok.take 80, is_alphanum c = true) :
    parseToken tok = .error () := by
  have hmem : ∀ (k : Nat) (hk : k < tok.length), k < 80 →
      tok.get ⟨k, hk⟩ ∈ tok.take 80 := by
    intro k hk h80
    have hlt : k < (tok.take 80).length := by
      rw [List.length_take]
      omega
    have he : (tok.take 80).get ⟨k, hlt⟩ = tok.get ⟨k, hk⟩ := by
      exact List.getElem_take tok
    rw [← he]
    exact (tok.take 80).get_mem k hlt
  have h := cfgLoop_full tok 80 0 0 [] (by omega) (by omega)
    (fun k hk _ h80 => halnum _ (hmem k hk (by omega)))
  have h79 : (79 : Nat) < tok.length := by omega
  have hgetd : tok.getD 79 0 = tok.get ⟨79, h79⟩ := by
    simpa using List.getD_eq_getElem tok 0 h79
  have hal79 : is_alphanum (tok.getD 79 0) = true := by
    rw [hgetd]
    exact halnum _ (hmem 79 h79 (by omega))
  obtain ⟨hne0, hne58⟩ := is_alphanum_ne _ hal79
  have htk : (tok.drop 0).take 80 ≠ [] := by
    rw [List.drop_zero]
    have hlt : (tok.take 80).length = 80 := by
      rw [List.length_take]
      omega
    intro hcon
    rw [hcon] at hlt
    simp at hlt
  unfold parseToken
  rw [h]
  simp only [List.reverse_nil, List.nil_append, Nat.zero_add]
  rw [if_neg htk, if_neg hne0, if_neg hne58]

/-! ### The cursor counts CR, LF and CRLF as one line break each -/

/-- Rewriting a text to CRLF line endings keeps every byte positive. -/
theorem toCRLF_pos (bs : List Int) (h : ∀ b ∈ bs, 0 < b) :
    ∀ x ∈ toCRLF bs, 0 < x := by
  induction bs with
  | nil => intro x hx; simp [toCRLF] at hx
  | cons b rest ih =>
    have hb := h b (List.mem_cons_self b rest)
    have hr := fun x hx => h x (List.mem_cons_of_mem b hx)
    intro x hx
    simp only [toCRLF] at hx
    by_cases hb10 : b = 10
    · rw [if_pos hb10] at hx
      simp only [List.mem_cons] at hx
      rcases hx with rfl | rfl | hx
      · omega
      · omega
      · exact ih hr x hx
    · rw [if_neg hb10] at hx
      simp only [List.mem_cons] at hx
      rcases hx with rfl | hx
      · omega
      · exact ih hr x hx

/-- Draining a CR-free text and its CRLF rewrite counts the same number
of lines: the CR of each CRLF pair counts the break, and the LF that
follows is absorbed by the CR flag. -/
theorem drain_crlf (bs : List Int) :
    (∀ b ∈ bs, 0 < b ∧ b ≠ 13) →
    ∀ (n m : Nat) (st1 st2 : St), st1.preview = 0 → st2.preview = 0 →
    st1.cr = false → st2.cr = false → st1.line_nr = st2.line_nr →
    st1.input = bs → st2.input = toCRLF bs →
    bs.length < n → (toCRLF bs).length < m →
    (drainLines n st1).line_nr = (drainLines m st2).line_nr := by
  induction bs with
  | nil =>
    intro _ n m st1 st2 hp1 hp2 _ _ hl hi1 hi2 hn hm
    rcases n with _ | n
    · omega
    rcases m with _ | m
    · omega
    have hwf1 : wf st1 := wf_of_preview_zero st1 hp1
      (by intro b hb; rw [hi1] at hb; exact absurd hb (List.not_mem_nil b))
    have hwf2 : wf st2 := wf_of_preview_zero st2 hp2
      (by intro b hb; rw [hi2] at hb; simp [toCRLF] at hb)
    have hs1 : stream st1 = [] := by simp [stream, hp1, hi1]
    have hs2 : stream st2 = [] := by simp [stream, hp2, hi2, toCRLF]
    simp only [drainLines]
    rw [get_nil false st1 hwf1 hs1, get_nil false st2 hwf2 hs2]
    simp [hl]
  | cons b rest ih =>
    intro hpos n m st1 st2 hp1 hp2 hc1 hc2 hl hi1 hi2 hn hm
    obtain ⟨hbpos, hb13⟩ := hpos b (List.mem_cons_self b rest)
    have hposr := fun x hx => hpos x (List.mem_cons_of_mem b hx)
    have hposb := fun x hx => (hpos x hx).1
    rcases n with _ | n
    · omega
    have hwf1 : wf st1 := wf_of_preview_zero st1 hp1
      (by intro x hx; rw [hi1] at hx; exact hposb x hx)
    have hs1 : stream st1 = b :: rest := by simp [stream, hp1, hi1]
    have hbne : ¬ (b = -1) := by omega
    have hlen1 : (b :: rest).length = rest.length + 1 := rfl
    by_cases hb10 : b = 10
    · subst hb10
      have hi2c : st2.input = 13 :: 10 :: toCRLF rest := by
        rw [hi2]; simp [toCRLF]
      have hlen2 : (toCRLF (10 :: rest)).length = (toCRLF rest).length + 2 := by
        simp [toCRLF]
      rcases m with _ | m
      · omega
      rcases m with _ | m
      · omega
      have hwf2 : wf st2 := wf_of_preview_zero st2 hp2
        (by intro x hx; rw [hi2] at hx
            exact toCRLF_pos (10 :: rest) (fun y hy => (hpos y hy).1) x hx)
      have hs2 : stream st2 = 13 :: 10 :: toCRLF rest := by
        simp [stream, hp2, hi2c]
      simp only [drainLines]
      rw [get_consA false st1 hwf1 10 rest hs1,
        get_consA false st2 hwf2 13 (10 :: toCRLF rest) hs2]
      simp only
      rw [if_neg (by norm_num : ¬ (10 : Int) = -1),
        if_neg (by norm_num : ¬ (13 : Int) = -1)]
      have hwfA2 := wf_afterGetSt false 13 (10 :: toCRLF rest) st2 hwf2 hs2
      have hsA2 : stream (afterGetSt false 13 (10 :: toCRLF rest) st2) =
          10 :: toCRLF rest := by simp
      rw [get_consA false _ hwfA2 10 (toCRLF rest) hsA2]
      simp only
      rw [if_neg (by norm_num : ¬ (10 : Int) = -1)]
      apply ih hposr
      · simp
      · simp
      · rw [afterGetSt_cr]; decide
      · rw [afterGetSt_cr]; decide
      · rw [afterGetSt_line_nr, afterGetSt_line_nr, afterGetSt_line_nr,
          afterGetSt_cr, hc1, hc2, hl]
        norm_num
      · simp
      · simp
      · omega
      · omega
    · have hi2c : st2.input = b :: toCRLF rest := by
        rw [hi2]; simp [toCRLF, hb10]
      have hlen2 : (toCRLF (b :: rest)).length = (toCRLF rest).length + 1 := by
        simp [toCRLF, hb10]
      rcases m with _ | m
      · omega
      have hwf2 : wf st2 := wf_of_preview_zero st2 hp2
        (by intro x hx; rw [hi2] at hx
            exact toCRLF_pos (b :: rest) (fun y hy => (hpos y hy).1) x hx)
      have hs2 : stream st2 = b :: toCRLF rest := by
        simp [stream, hp2, hi2c]
      simp only [drainLines]
      rw [get_consA false st1 hwf1 b rest hs1,
        get_consA false st2 hwf2 b (toCRLF rest) hs2]
      simp only
      rw [if_neg hbne, if_neg hbne]
      apply ih hposr
      · simp
      · simp
      · rw [afterGetSt_cr]; simp [hb13]
      · rw [afterGetSt_cr]; simp [hb13]
      · rw [afterGetSt_line_nr, afterGetSt_line_nr, hc1, hc2, hl]
      · simp
      · simp
      · omega
      · omega

/-! ### Heads of dropWhile runs -/

/-- The first character left after dropping an identifier run fails the
predicate. -/
theorem dropWhile_head_false (p : Int → Bool) :
    ∀ (l : List Int) (r : Int) (rr : List Int),
    l.dropWhile p = r :: rr → p r = false := by
  intro l
  induction l with
  | nil => intro r rr h; simp [List.dropWhile] at h
  | cons a as ih =>
    intro r rr h
    rw [List.dropWhile_cons] at h
    by_cases hp : p a = true
    · rw [if_pos hp] at h
      exact ih r rr h
    · rw [if_neg hp] at h
      cases h
      simpa using hp

/-- The character a short tag scan pushes back is never an identifier
character. -/
theorem endChar_dropWhile (l : List Int) :
    is_alphanum (endChar (l.dropWhile is_alphanum)) = false := by
  rcases hd : l.dropWhile is_alphanum with _ | ⟨r, rr⟩
  · decide
  · have := dropWhile_head_false is_alphanum l r rr hd
    simpa [endChar] using this

/-- The initial state over a positive input is well-formed. -/
theorem wf_mkSt (l : List Int) (h : ∀ b ∈ l, 0 < b) : wf (mkSt l) :=
  wf_of_preview_zero _ rfl h

/-! ## The claims -/

/-- C1: a matched tagged comment expands to exactly one of the four
shapes: an optional if-header with the scanned condition exactly when a
parenthesized condition follows the tag, then a brace block holding
either the bound call applied to the stuff followed by a semicolon, or
the stuff alone when no call is bound; in particular with tag alarm
bound to alert, the input /*alarm(x>0) x*/ yields if (x>0) followed by a
brace block around alert(x);. -/
theorem c1_expansion_shapes :
    (∀ (fuel : Nat) (m : List Int) (st st' : St),
      expand fuel m st = .ok st' → wf st →
      wf st' ∧ st'.tagOverflow = st.tagOverflow ∧ st'.expanded = true ∧
      ∃ condOut stuffOut, st'.output = st.output ++
        (if (peek st).1 = 40 then [105, 102, 32] ++ condOut ++ [32] else []) ++
        [123] ++
        (if m ≠ [] then m ++ [40] ++ stuffOut ++ [41, 59, 125]
         else stuffOut ++ [125])) ∧
    jsdev [([97, 108, 97, 114, 109], [97, 108, 101, 114, 116])]
        [47, 42, 97, 108, 97, 114, 109, 40, 120, 62, 48, 41, 32, 120, 42, 47] =
      .ok [105, 102, 32, 40, 120, 62, 48, 41, 32, 123, 97, 108, 101, 114,
        116, 40, 120, 41, 59, 125] :=
  ⟨fun fuel m st st' h hwf => expand_spec fuel m st st' h hwf, rfl⟩

/-- The state a small concrete `expand` run ends in. -/
def c1ExpandSt : St := ⟨[], 0, 0, false, [123, 120, 125], 0, true, false⟩

/-- C1 witness: the expansion property at a concrete run. -/
theorem c1_expansion_shapes_witness :
    wf c1ExpandSt ∧ c1ExpandSt.expanded = true :=
  ⟨(c1_expansion_shapes.1 20 [] (mkSt [32, 120, 42, 47]) c1ExpandSt rfl
      (wf_mkSt _ (by decide))).1,
   (c1_expansion_shapes.1 20 [] (mkSt [32, 120, 42, 47]) c1ExpandSt rfl
      (wf_mkSt _ (by decide))).2.2.1⟩

/-- C2 counterexample: an input in which a comment opener is followed by
a run of exactly 80 identifier characters is not passed through byte for
byte even though no tag matches: the 80th character of the run is
scanned twice and appears twice in the output. -/
theorem c2_passthrough_cx :
    jsdev [] ([47, 42] ++ List.replicate 80 97 ++ [42, 47]) =
      .ok ([47, 42] ++ List.replicate 81 97 ++ [42, 47]) ∧
    ([47, 42] ++ List.replicate 81 97 ++ [42, 47] : List Int) ≠
      [47, 42] ++ List.replicate 80 97 ++ [42, 47] :=
  ⟨rfl, by decide⟩

/-- C2 (amended): whenever a full run succeeds with both ghost
observations clear — no registry match was expanded and no identifier
run after a comment opener reached 80 characters — the output equals
the input byte for byte. -/
theorem c2_passthrough (fuel : Nat) (regs : Reg) (input : List Int)
    (st' : St) (h : process fuel regs input = .ok st')
    (hpos : ∀ b ∈ input, 0 < b)
    (hexp : st'.expanded = false) (hto : st'.tagOverflow = false) :
    st'.output = input :=
  process_echo fuel regs input st' h hpos hexp hto

/-- The state a small concrete `process` run ends in. -/
def c2RunSt : St := ⟨[], 0, 1, false, [97, 98], 0, false, false⟩

/-- C2 witness: passthrough at a concrete run. -/
theorem c2_passthrough_witness : c2RunSt.output = [97, 98] :=
  c2_passthrough 20 [([100, 101, 98, 117, 103], [])] [97, 98] c2RunSt rfl
    (by decide) rfl rfl

/-- C3: pre_regexp recognizes exactly the twelve characters
( , = : [ ! & | ? ; and the two braces; on a lone slash (next character
neither slash nor star) the main loop starts a regexp scan exactly when
the left-significant character is in that set — the ghost counter grows
by one then and only then; the input a = b/c/d; is passed through with
no regexp scan, while x=/abc/; is passed through with exactly one. -/
theorem c3_regex_context :
    (∀ left : Int, pre_regexp left = true ↔
      (left = 40 ∨ left = 44 ∨ left = 61 ∨ left = 58 ∨ left = 91 ∨
       left = 33 ∨ left = 38 ∨ left = 124 ∨ left = 63 ∨ left = 123 ∨
       left = 125 ∨ left = 59)) ∧
    (∀ (fuel : Nat) (regs : Reg) (left : Int) (st : St) (b : Int)
      (rest : List Int) (c1 l1 : Int) (st1 : St), wf st →
      stream st = b :: rest → b ≠ 47 → b ≠ 42 →
      processStep fuel regs 47 left st = .ok (.next c1 l1 st1) →
      st1.regexStarts = st.regexStarts +
        (if pre_regexp left then 1 else 0)) ∧
    jsdev [] [97, 32, 61, 32, 98, 47, 99, 47, 100, 59] =
      .ok [97, 32, 61, 32, 98, 47, 99, 47, 100, 59] ∧
    (jsdevSt [] [97, 32, 61, 32, 98, 47, 99, 47, 100, 59]).map
      St.regexStarts = .ok 0 ∧
    jsdev [] [120, 61, 47, 97, 98, 99, 47, 59] =
      .ok [120, 61, 47, 97, 98, 99, 47, 59] ∧
    (jsdevSt [] [120, 61, 47, 97, 98, 99, 47, 59]).map
      St.regexStarts = .ok 1 := by
  refine ⟨?_, ?_, rfl, rfl, rfl, rfl⟩
  · intro left
    simp [pre_regexp, or_assoc]
  · intro fuel regs left st b rest c1 l1 st1 hwf hs hb47 hb42 h
    exact (processStep_slash_regex fuel regs left st b rest c1 l1 st1
      hwf hs hb47 hb42 h).1

/-- The state a concrete lone-slash step ends in. -/
def c3StepSt : St := ⟨[59], 0, 0, false, [47], 0, false, false⟩

/-- C3 witness: a lone slash with left-significant character 0 leaves
the regexp counter unchanged. -/
theorem c3_regex_context_witness :
    c3StepSt.regexStarts = (mkSt [120, 59]).regexStarts +
      (if pre_regexp 0 then 1 else 0) :=
  c3_regex_context.2.1 8 [] 0 (mkSt [120, 59]) 120 [59] 120 47 c3StepSt
    (wf_mkSt _ (by decide)) rfl (by norm_num) (by norm_num) rfl

/-- C4 counterexample: when 80 identifier characters follow the comment
opener, the pushed-back character is an identifier character that is
already stored in the candidate, and it is left on the stream to be
scanned a second time. -/
theorem c4_tag_pushback_cx :
    (tagScan (mkSt (List.replicate 80 98 ++ [42, 47]))).2.1 ∈
      (tagScan (mkSt (List.replicate 80 98 ++ [42, 47]))).1 ∧
    is_alphanum (tagScan (mkSt (List.replicate 80 98 ++ [42, 47]))).2.1 =
      true ∧
    stream (tagScan (mkSt (List.replicate 80 98 ++ [42, 47]))).2.2 =
      [98, 42, 47] := by
  decide

/-- C4 (amended): for identifier runs shorter than 80 the tag scan
stores exactly the run, pushes back the first non-identifier character
(never one already stored) and neither drops nor duplicates input; when
the run reaches 80 characters the candidate holds the first 80 of them
and the pushed-back character is the 80th — an identifier character
that is both stored and rescanned. -/
theorem c4_tag_pushback (st : St) (hwf : wf st) :
    (((stream st).takeWhile is_alphanum).length < 80 →
      (tagScan st).1 = (stream st).takeWhile is_alphanum ∧
      (tagScan st).2.1 = endChar ((stream st).dropWhile is_alphanum) ∧
      is_alphanum (tagScan st).2.1 = false ∧
      stream (tagScan st).2.2 = (stream st).dropWhile is_alphanum ∧
      (tagScan st).1 ++ stream (tagScan st).2.2 = stream st) ∧
    (80 ≤ ((stream st).takeWhile is_alphanum).length →
      (tagScan st).1 = (stream st).take 80 ∧
      (tagScan st).2.1 ∈ (tagScan st).1 ∧
      is_alphanum (tagScan st).2.1 = true ∧
      stream (tagScan st).2.2 = (stream st).drop 79) := by
  constructor
  · intro hlen
    obtain ⟨h1, h2, h3, -, -, -, -, -⟩ := tagScan_break st hwf hlen
    refine ⟨h1, h2, ?_, h3, ?_⟩
    · rw [h2]
      exact endChar_dropWhile (stream st)
    · rw [h1, h3]
      exact List.takeWhile_append_dropWhile is_alphanum (stream st)
  · intro hlen
    obtain ⟨h1, -, h3, h4, h5, -, -, -, -, -⟩ := tagScan_count st hwf hlen
    exact ⟨h1, h3, h4, h5⟩

/-- C4 witness: the short-run case at a concrete state. -/
theorem c4_tag_pushback_witness :
    (tagScan (mkSt [97, 40])).1 =
      (stream (mkSt [97, 40])).takeWhile is_alphanum ∧
    (tagScan (mkSt [97, 40])).2.1 =
      endChar ((stream (mkSt [97, 40])).dropWhile is_alphanum) ∧
    is_alphanum (tagScan (mkSt [97, 40])).2.1 = false ∧
    stream (tagScan (mkSt [97, 40])).2.2 =
      (stream (mkSt [97, 40])).dropWhile is_alphanum ∧
    (tagScan (mkSt [97, 40])).1 ++ stream (tagScan (mkSt [97, 40])).2.2 =
      stream (mkSt [97, 40]) :=
  (c4_tag_pushback (mkSt [97, 40]) (wf_mkSt _ (by decide))).1 (by decide)

/-- C5 counterexample: a well-formed all-identifier token of exactly 80
characters (no colon) is rejected by the configuration parser, although
the claim says names of 1 to 80 characters are accepted. -/
theorem c5_config_len_cx :
    parseToken (List.replicate 80 98) = .error () ∧
    (List.replicate 80 98 : List Int).length = 80 ∧
    (∀ c ∈ (List.replicate 80 98 : List Int),
      is_alphanum c = true ∧ c ≠ 58) :=
  ⟨rfl, rfl, by decide⟩

/-- C5 (amended): a nonempty colon-free identifier token is accepted as
a tag name exactly when it has at most 79 characters; a token whose
first 80 characters are identifier characters is always rejected,
because the copy loop then stops by count holding an identifier
character where the terminator is expected. -/
theorem c5_config_tokens :
    (∀ tok : List Int, tok ≠ [] → tok.length ≤ 79 →
      (∀ c ∈ tok, is_alphanum c = true) → parseToken tok = .ok (tok, [])) ∧
    (∀ tok : List Int, 80 ≤ tok.length →
      (∀ c ∈ tok.take 80, is_alphanum c = true) →
      parseToken tok = .error ()) :=
  ⟨parseToken_accept, parseToken_reject80⟩

/-- C5 witness: a 79-character name is accepted. -/
theorem c5_config_tokens_witness :
    parseToken (List.replicate 79 97) = .ok (List.replicate 79 97, []) :=
  c5_config_tokens.1 (List.replicate 79 97) (by decide) (by decide) (by decide)

/-- C6: over any CR-free text, the cursor counts the same line totals on
the text and on its CRLF rewrite — CR, LF and CRLF each count one
break, the LF of a CRLF pair being absorbed by the CR flag — and a
diagnostic reports the same line number either way, as on an
unterminated string opened on line 3. -/
theorem c6_crlf_lines :
    (∀ (bs : List Int), (∀ b ∈ bs, 0 < b ∧ b ≠ 13) →
      (drainLines (bs.length + 1) (mkSt bs)).line_nr =
      (drainLines ((toCRLF bs).length + 1) (mkSt (toCRLF bs))).line_nr) ∧
    jsdev [] [10, 10, 39, 97] = .error ⟨.unterminatedString, 3⟩ ∧
    jsdev [] [13, 10, 13, 10, 39, 97] = .error ⟨.unterminatedString, 3⟩ := by
  refine ⟨?_, rfl, rfl⟩
  intro bs hpos
  exact drain_crlf bs hpos (bs.length + 1) ((toCRLF bs).length + 1)
    (mkSt bs) (mkSt (toCRLF bs)) rfl rfl rfl rfl rfl rfl rfl
    (by omega) (by omega)

/-- C6 witness: equal line totals on a concrete text and its CRLF
rewrite. -/
theorem c6_crlf_lines_witness :
    (drainLines 4 (mkSt [97, 10, 98])).line_nr =
    (drainLines 5 (mkSt (toCRLF [97, 10, 98]))).line_nr :=
  c6_crlf_lines.1 [97, 10, 98] (by decide)

/-- C7: in a stuff body a closing bracket at depth 0 fails immediately
with the unbalanced-stuff error, and the comment terminator recognized
at positive depth fails with the same error instead of closing; in
particular /*debug (a*/ fails with it on line 1. -/
theorem c7_unbalanced_stuff :
    (∀ (n : Nat) (left paren : Int) (st : St), wf st →
      ∀ (cb : Int) (rest : List Int), stream st = cb :: rest →
      (cb = 41 ∨ cb = 125 ∨ cb = 93) → paren - 1 < 0 →
      stuffLoop (n + 2) left paren st =
        .error ⟨.unbalancedStuff, st.line_nr⟩) ∧
    (∀ (n : Nat) (left paren : Int) (st : St), wf st →
      ∀ (rest : List Int), stream st = 42 :: 47 :: rest → 0 < paren →
      stuffLoop (n + 2) left paren st =
        .error ⟨.unbalancedStuff, st.line_nr⟩) ∧
    jsdev [([100, 101, 98, 117, 103], [])]
        [47, 42, 100, 101, 98, 117, 103, 32, 40, 97, 42, 47] =
      .error ⟨.unbalancedStuff, 1⟩ :=
  ⟨fun n left paren st hwf cb rest hs hcb hpar =>
      stuffLoop_neg_depth n left paren st hwf cb rest hs hcb hpar,
   fun n left paren st hwf rest hs hpar =>
      stuffLoop_term_unbalanced n left paren st hwf rest hs hpar,
   rfl⟩

/-- C7 witness: a lone closing parenthesis at depth 0. -/
theorem c7_unbalanced_stuff_witness :
    stuffLoop 2 123 0 (mkSt [41]) = .error ⟨.unbalancedStuff, 0⟩ :=
  c7_unbalanced_stuff.1 0 123 0 (mkSt [41]) (wf_mkSt _ (by decide)) 41 [] rfl
    (by norm_num) (by norm_num)

/-- C8: whenever the string scanner fails with the unterminated-string
error it reports the remembered starting line of the literal, so the
entry point reports the line the literal began on; reaching end of
stream triggers exactly that error; concretely, a string opened on line
1 and left open across a newline is reported at line 1 although the
input ends on line 2. -/
theorem c8_string_start_line :
    (∀ (n : Nat) (q : Int) (ic : Bool) (was : Nat) (st : St) (e : Err),
      stringLoop n q ic was st = .error e → e.kind = .unterminatedString →
      e.line = was) ∧
    (∀ (fuel : Nat) (q : Int) (ic : Bool) (st : St) (e : Err),
      string fuel q ic st = .error e → e.kind = .unterminatedString →
      e.line = st.line_nr) ∧
    (∀ (n : Nat) (q : Int) (ic : Bool) (was : Nat) (st : St), wf st →
      stream st = [] → 0 < q →
      stringLoop (n + 1) q ic was st = .error ⟨.unterminatedString, was⟩) ∧
    jsdev [] [39, 97, 10, 98] = .error ⟨.unterminatedString, 1⟩ ∧
    (drainLines 5 { mkSt [39, 97, 10, 98] with line_nr := 1 }).line_nr = 2 := by
  refine ⟨?_, ?_, ?_, rfl, rfl⟩
  · exact fun n => stringLoop_error_line n
  · intro fuel q ic st e h hk
    exact stringLoop_error_line fuel q ic st.line_nr st e h hk
  · exact fun n q ic was st hwf hs hq => stringLoop_eof n q ic was st hwf hs hq

/-- C8 witness: end of stream reported at the remembered line. -/
theorem c8_string_start_line_witness :
    stringLoop 3 39 false 7 (mkSt []) = .error ⟨.unterminatedString, 7⟩ :=
  c8_string_start_line.2.2.1 2 39 false 7 (mkSt []) (wf_mkSt _ (by decide)) rfl
    (by norm_num)

/-- C9 counterexample: a block comment whose identifier run has exactly
80 characters and matches nothing is not echoed verbatim: the echoed
text carries the 80th run character twice. -/
theorem c9_comment_echo_cx :
    jsdev [] ([47, 42] ++ List.replicate 80 99 ++ [42, 47]) =
      .ok ([47, 42] ++ List.replicate 81 99 ++ [42, 47]) ∧
    ([47, 42] ++ List.replicate 81 99 ++ [42, 47] : List Int) ≠
      [47, 42] ++ List.replicate 80 99 ++ [42, 47] :=
  ⟨rfl, by decide⟩

/-- C9 (amended): a main-loop step on a slash that ends with both ghost
observations clear — in particular one that scans an unmatched or
untagged comment shorter than the tag bound — sends to the output
exactly the characters it consumed, so the comment text reappears
verbatim through its real terminator; a concrete unmatched comment
round-trips unchanged. -/
theorem c9_comment_echo :
    (∀ (fuel : Nat) (regs : Reg) (left : Int) (st : St)
      (c1 l1 : Int) (st1 : St), wf st →
      processStep fuel regs 47 left st = .ok (.next c1 l1 st1) →
      st1.expanded = false → st1.tagOverflow = false →
      ∃ d, heldList 47 ++ stream st = d ++ heldList c1 ++ stream st1 ∧
        st1.output = st.output ++ d) ∧
    jsdev [([100, 101, 98, 117, 103], [])]
        [47, 42, 117, 110, 107, 110, 111, 119, 110, 32, 115, 116, 117,
         102, 102, 42, 47] =
      .ok [47, 42, 117, 110, 107, 110, 111, 119, 110, 32, 115, 116, 117,
         102, 102, 42, 47] := by
  refine ⟨?_, rfl⟩
  intro fuel regs left st c1 l1 st1 hwf h hexp hto
  exact ((processStep_echo fuel regs 47 left st _ h hwf).2 c1 l1 st1
    rfl).2.2.2.2.2 hexp hto

/-- The state a concrete unmatched-comment step ends in. -/
def c9StepSt : St := ⟨[], 0, 0, false, [47, 42, 104, 105, 42, 47], 0,
  false, false⟩

/-- C9 witness: a concrete unmatched comment is echoed exactly. -/
theorem c9_comment_echo_witness :
    ∃ d, heldList 47 ++ stream (mkSt [42, 104, 105, 42, 47]) =
        d ++ heldList (-1) ++ stream c9StepSt ∧
      c9StepSt.output = (mkSt [42, 104, 105, 42, 47]).output ++ d :=
  c9_comment_echo.1 12 [([100, 101, 98, 117, 103], [])] 0
    (mkSt [42, 104, 105, 42, 47]) (-1) 0 c9StepSt (wf_mkSt _ (by decide))
    rfl rfl rfl

/-- C10: the top-level scan starts with left-significant character 0,
which pre_regexp rejects, so a slash before any visible character is
division and never opens a regexp scan; condition and stuff bodies start
their scans with an open brace, which pre_regexp accepts, so there an
initial slash does open one. Concretely /x/ a at top level scans no
regexp, while the same text inside a tagged comment body scans one. -/
theorem c10_initial_left :
    pre_regexp 0 = false ∧ pre_regexp 123 = true ∧
    (∀ (fuel : Nat) (regs : Reg) (input : List Int),
      process fuel regs input = processLoop fuel regs
        (get false { mkSt input with line_nr := 1 }).1 0
        (get false { mkSt input with line_nr := 1 }).2) ∧
    (∀ (fuel : Nat) (st : St),
      condition fuel st = conditionLoop fuel 123 0 st) ∧
    (∀ (fuel : Nat) (st : St), stuff fuel st =
      match spacesLoop fuel st with
      | .error e => .error e
      | .ok st1 => stuffLoop fuel 123 0 st1) ∧
    jsdev [] [47, 120, 47, 32, 97] = .ok [47, 120, 47, 32, 97] ∧
    (jsdevSt [] [47, 120, 47, 32, 97]).map St.regexStarts = .ok 0 ∧
    jsdev [([100, 101, 98, 117, 103], [])]
        [47, 42, 100, 101, 98, 117, 103, 32, 47, 120, 47, 32, 42, 47] =
      .ok [123, 47, 120, 47, 32, 125] ∧
    (jsdevSt [([100, 101, 98, 117, 103], [])]
        [47, 42, 100, 101, 98, 117, 103, 32, 47, 120, 47, 32, 42, 47]).map
      St.regexStarts = .ok 1 :=
  ⟨rfl, rfl, fun _ _ _ => rfl, fun _ _ => rfl, fun _ _ => rfl,
   rfl, rfl, rfl, rfl⟩

end JSDev
